import Mathlib

/-!
Shallow embedding of `water::ReferenceCountedArray` (Carla, `src/unnamed/part_001`,
a header of the Water library).  Elements are raw pointers to intrusively
reference-counted objects; we model a pointer as `Option ObjId` (`none` is
`nullptr`) and the population of live objects as an association list from
object identity to its current reference count.  Array operations that touch
reference counts thread this heap explicitly.
-/

set_option maxHeartbeats 1000000

namespace Water

/-- Identity of an allocated `ObjectClass` instance (its address). -/
abbrev ObjId := Nat

/-- Contents of one slot of the array: an `ObjectClass*`; `none` is `nullptr`. -/
abbrev Slot := Option ObjId

/-- Population of live reference-counted objects: one entry per live object,
mapping its identity to its current reference count. -/
abbrev Heap := List (ObjId × Nat)

namespace Heap

/-- Identities of the live objects. -/
def keys (h : Heap) : List ObjId := h.map (·.1)

/-- Current reference count of `o`, or `none` if `o` is not (or no longer) live. -/
def lookup (h : Heap) (o : ObjId) : Option Nat :=
  (h.find? (fun p => p.1 == o)).map (·.2)

/-- Models `o->incReferenceCount()`: the counter of `o` grows by one. -/
def incReferenceCount (h : Heap) (o : ObjId) : Heap :=
  h.map (fun p => if p.1 = o then (p.1, p.2 + 1) else p)

/-- Models `ReferenceCountedArray::releaseObject` (part_001 lines 846-850):
`if (o->decReferenceCountWithoutDeleting()) delete o;` — the count is
decremented exactly once and the object is destroyed iff that decrement
reaches zero. -/
def releaseObject (h : Heap) (o : ObjId) : Heap :=
  h.filterMap (fun p =>
    if p.1 = o then (if p.2 = 1 then none else some (p.1, p.2 - 1)) else some p)

end Heap

/-- Models `isPositiveAndBelow (valueToTest, upperLimit)`:
`valueToTest >= 0 && valueToTest < upperLimit`. -/
def isPositiveAndBelow (valueToTest upperLimit : Int) : Bool :=
  decide (0 ≤ valueToTest) && decide (valueToTest < upperLimit)

/-- Models `jlimit (lowerLimit, upperLimit, valueToConstrain)`: the value
clamped into `[lowerLimit, upperLimit]`. -/
def jlimit (lowerLimit upperLimit valueToConstrain : Int) : Int :=
  if valueToConstrain < lowerLimit then lowerLimit
  else if upperLimit < valueToConstrain then upperLimit
  else valueToConstrain

/-- Modelled from the spec: `ArrayAllocationBase::ensureAllocatedSize` is in a
module of this repository that is not under `src/`.  Per §3/§4.2 the store
"grows by doubling (or to the exact requested minimum if larger)"; freshly
allocated slots are uninitialised, modelled as `none` (they are never read
before being written). -/
def ensureAllocatedSize (els : List Slot) (minNumElements : Nat) : List Slot :=
  if els.length < minNumElements then
    els ++ List.replicate (max (2 * els.length) minNumElements - els.length) none
  else els

/-- Modelled from the spec: `ArrayAllocationBase::setAllocatedSize` resizes the
buffer to precisely the requested number of slots (§4.2). -/
def setAllocatedSize (els : List Slot) (numElements : Nat) : List Slot :=
  els.take numElements ++ List.replicate (numElements - els.length) none

/-- Modelled from the spec: `ArrayAllocationBase::shrinkToNoMoreThan` releases
excess capacity down to the requested bound (§4.2). -/
def shrinkToNoMoreThan (els : List Slot) (maxNumElements : Nat) : List Slot :=
  if maxNumElements < els.length then els.take maxNumElements else els

/-- Models the state of one `ReferenceCountedArray<ObjectClass>`:
`elements` is the allocated buffer (`data.elements`, one entry per allocated
slot, so `elements.length` plays `data.numAllocated`) and `numUsed` the count
of occupied slots. -/
structure ReferenceCountedArray where
  elements : List Slot
  numUsed : Nat
deriving DecidableEq

namespace ReferenceCountedArray

/-- Slots currently occupied: the first `numUsed` slots of the buffer. -/
def used (a : ReferenceCountedArray) : List Slot := a.elements.take a.numUsed

/-- Models `size()`. -/
def size (a : ReferenceCountedArray) : Nat := a.numUsed

/-- Models `getObjectPointer (index)` (part_001 lines 186-195), the checked
read behind `operator[]`: the slot when `isPositiveAndBelow (index, numUsed)`,
otherwise a null pointer. -/
def getObjectPointer (a : ReferenceCountedArray) (index : Int) : Slot :=
  if isPositiveAndBelow index a.numUsed then a.elements.getD index.toNat none
  else none

/-- Models `getFirst()` (part_001 lines 211-220). -/
def getFirst (a : ReferenceCountedArray) : Slot :=
  if 0 < a.numUsed then a.elements.getD 0 none else none

/-- Models `getLast()` (part_001 lines 227-236). -/
def getLast (a : ReferenceCountedArray) : Slot :=
  if 0 < a.numUsed then a.elements.getD (a.numUsed - 1) none else none

/-- Models `add (newObject)` (part_001 lines 314-324): grow, write the slot at
`numUsed`, increment the new object's count (unless null), bump `numUsed`. -/
def add (h : Heap) (a : ReferenceCountedArray) (newObject : Slot) :
    Heap × ReferenceCountedArray :=
  let els := ensureAllocatedSize a.elements (a.numUsed + 1)
  let els := els.set a.numUsed newObject
  let h := match newObject with
    | some o => Heap.incReferenceCount h o
    | none => h
  (h, ⟨els, a.numUsed + 1⟩)

/-- Models `insert (indexToInsertAt, newObject)` (part_001 lines 339-365):
negative index appends via `add`; an index past the end is clamped to
`numUsed`; otherwise the tail `memmove`s one slot right and the new object's
count is incremented (unless null). -/
def insert (h : Heap) (a : ReferenceCountedArray) (indexToInsertAt : Int)
    (newObject : Slot) : Heap × ReferenceCountedArray :=
  if indexToInsertAt < 0 then add h a newObject
  else
    let i : Nat := if (a.numUsed : Int) < indexToInsertAt then a.numUsed
                   else indexToInsertAt.toNat
    let els := ensureAllocatedSize a.elements (a.numUsed + 1)
    let els := els.take i ++ [newObject] ++ (els.drop i).take (a.numUsed - i)
                 ++ els.drop (a.numUsed + 1)
    let h := match newObject with
      | some o => Heap.incReferenceCount h o
      | none => h
    (h, ⟨els, a.numUsed + 1⟩)

/-- Models `set (indexToChange, newObject)` (part_001 lines 396-418): negative
index is a no-op; otherwise the new object is incremented first (unless null),
then an in-bounds slot releases its prior occupant and is overwritten, while an
out-of-bounds index appends at `numUsed` exactly as `add` does. -/
def set (h : Heap) (a : ReferenceCountedArray) (indexToChange : Int)
    (newObject : Slot) : Heap × ReferenceCountedArray :=
  if 0 ≤ indexToChange then
    let h := match newObject with
      | some o => Heap.incReferenceCount h o
      | none => h
    if indexToChange < (a.numUsed : Int) then
      let h := match a.elements.getD indexToChange.toNat none with
        | some o => Heap.releaseObject h o
        | none => h
      (h, ⟨a.elements.set indexToChange.toNat newObject, a.numUsed⟩)
    else
      let els := ensureAllocatedSize a.elements (a.numUsed + 1)
      (h, ⟨els.set a.numUsed newObject, a.numUsed + 1⟩)
  else (h, a)

/-- Models `remove (indexToRemove)` (part_001 lines 539-557): out-of-range is a
no-op; otherwise the occupant is released, the tail `memmove`s one slot left
and the store shrinks when less than half used. -/
def remove (h : Heap) (a : ReferenceCountedArray) (indexToRemove : Int) :
    Heap × ReferenceCountedArray :=
  if isPositiveAndBelow indexToRemove a.numUsed then
    let i := indexToRemove.toNat
    let h := match a.elements.getD i none with
      | some o => Heap.releaseObject h o
      | none => h
    let n := a.numUsed - 1
    let els := a.elements.take i ++ (a.elements.drop (i + 1)).take (n - i)
                 ++ a.elements.drop n
    let els := if 2 * n < a.elements.length then shrinkToNoMoreThan els n else els
    (h, ⟨els, n⟩)
  else (h, a)

/-- Models `removeAndReturn (indexToRemove)` (part_001 lines 568-593): like
`remove`, but the local `ObjectClassPtr removedItem = o` takes one extra
reference before `releaseObject (o)` runs, and that handle is returned. -/
def removeAndReturn (h : Heap) (a : ReferenceCountedArray) (indexToRemove : Int) :
    Slot × Heap × ReferenceCountedArray :=
  if isPositiveAndBelow indexToRemove a.numUsed then
    let i := indexToRemove.toNat
    let removedItem := a.elements.getD i none
    let h := match a.elements.getD i none with
      | some o => Heap.releaseObject (Heap.incReferenceCount h o) o
      | none => h
    let n := a.numUsed - 1
    let els := a.elements.take i ++ (a.elements.drop (i + 1)).take (n - i)
                 ++ a.elements.drop n
    let els := if 2 * n < a.elements.length then shrinkToNoMoreThan els n else els
    (removedItem, h, ⟨els, n⟩)
  else (none, h, a)

end ReferenceCountedArray

/-- Observable event inside the `removeRange` release loop: an occupant's
release, or a slot being written to `nullptr`. -/
inductive RemoveEvent where
  | objectReleased (slotIndex : Nat) (o : ObjId)
  | slotNulled (slotIndex : Nat)
deriving DecidableEq

namespace ReferenceCountedArray

/-- One iteration of the release loop of `removeRange` (part_001 lines
631-639): `if (ObjectClass* o = data.elements[i]) { releaseObject (o);
data.elements[i] = nullptr; }`, recording the order of the two effects. -/
def removeRangeStep (acc : Heap × List Slot × List RemoveEvent) (i : Nat) :
    Heap × List Slot × List RemoveEvent :=
  match acc.2.1.getD i none with
  | some o =>
      (Heap.releaseObject acc.1 o, acc.2.1.set i none,
       acc.2.2 ++ [RemoveEvent.objectReleased i o, RemoveEvent.slotNulled i])
  | none => acc

/-- Release loop of `removeRange` over the clamped range `[s, e)`. -/
def removeRangeLoop (h : Heap) (els : List Slot) (s e : Nat) :
    Heap × List Slot × List RemoveEvent :=
  (List.range' s (e - s)).foldl removeRangeStep (h, els, [])

/-- Models `removeRange (startIndex, numberToRemove)` (part_001 lines 623-655):
clamp the range with `jlimit`, run the release loop, shift the tail left by
`rangeSize` and shrink when less than half used. -/
def removeRange (h : Heap) (a : ReferenceCountedArray)
    (startIndex numberToRemove : Int) : Heap × ReferenceCountedArray :=
  let start := jlimit 0 a.numUsed startIndex
  let endIndex := jlimit 0 a.numUsed (startIndex + numberToRemove)
  if start < endIndex then
    let s := start.toNat
    let e := endIndex.toNat
    let (h, els, _) := removeRangeLoop h a.elements s e
    let rangeSize := e - s
    let n := a.numUsed - rangeSize
    let els := els.take s ++ (els.drop e).take (a.numUsed - e) ++ els.drop n
    let els := if 2 * n < a.elements.length then shrinkToNoMoreThan els n else els
    (h, ⟨els, n⟩)
  else (h, a)

/-- Event trace of the release loop of a `removeRange` call (empty when the
clamped range is empty and the body is skipped). -/
def removeRangeEvents (h : Heap) (a : ReferenceCountedArray)
    (startIndex numberToRemove : Int) : List RemoveEvent :=
  let start := jlimit 0 a.numUsed startIndex
  let endIndex := jlimit 0 a.numUsed (startIndex + numberToRemove)
  if start < endIndex then
    (removeRangeLoop h a.elements start.toNat endIndex.toNat).2.2
  else []

/-- Models `move (currentIndex, newIndex)` (part_001 lines 703-731): no-op when
the two indices coincide or `currentIndex` is out of range; an out-of-range
destination is clamped to the last valid index; the intervening block
`memmove`s by one slot and the value is written at the destination.  The
method touches no reference count (it takes and returns no `Heap`). -/
def move (a : ReferenceCountedArray) (currentIndex newIndexArg : Int) :
    ReferenceCountedArray :=
  if currentIndex ≠ newIndexArg then
    if isPositiveAndBelow currentIndex a.numUsed then
      let newIndex : Nat :=
        if isPositiveAndBelow newIndexArg a.numUsed then newIndexArg.toNat
        else a.numUsed - 1
      let cur := currentIndex.toNat
      let value := a.elements.getD cur none
      let els :=
        if cur < newIndex then
          a.elements.take cur ++ (a.elements.drop (cur + 1)).take (newIndex - cur)
            ++ [value] ++ a.elements.drop (newIndex + 1)
        else
          a.elements.take newIndex ++ [value]
            ++ (a.elements.drop newIndex).take (cur - newIndex)
            ++ a.elements.drop (cur + 1)
      ⟨els, a.numUsed⟩
    else a
  else a

/-- Heap effect of the downward loop `for (i = numUsed; --i >= 0;) if (o =
elements[i]) o->incReferenceCount();` of the copy constructor. -/
def incAll (h : Heap) (els : List Slot) : Heap :=
  els.foldr
    (fun x hh => match x with
      | some o => Heap.incReferenceCount hh o
      | none => hh) h

/-- Heap effect of `releaseAllObjects()` (part_001 lines 837-844): release
every occupant, walking `numUsed` down to zero. -/
def releaseAll (h : Heap) (els : List Slot) : Heap :=
  els.foldr
    (fun x hh => match x with
      | some o => Heap.releaseObject hh o
      | none => hh) h

/-- Models the copy constructor (part_001 lines 70-79): a fresh buffer of
exactly `numUsed` slots, the first `numUsed` handles `memcpy`d over, and each
non-null handle incremented once. -/
def copyConstruct (h : Heap) (other : ReferenceCountedArray) :
    Heap × ReferenceCountedArray :=
  let els := setAllocatedSize other.elements other.numUsed
  (incAll h els, ⟨els, other.numUsed⟩)

/-- Models `operator=` (part_001 lines 97-102): copy-construct a temporary
from the source, `swapWith` it (constant-time exchange of buffer and
`numUsed`), and let the temporary's destructor release the destination's old
contents. -/
def assign (h : Heap) (dst src : ReferenceCountedArray) :
    Heap × ReferenceCountedArray :=
  let hc := copyConstruct h src
  let newDst := hc.2
  let h2 := releaseAll hc.1 (dst.elements.take dst.numUsed)
  (h2, newDst)

/-- Comparator shape of `ElementComparator::compareElements` on raw element
pointers: negative, zero or positive. -/
abbrev Comparator := Slot → Slot → Int

/-- Recursion behind `indexOfSorted` (part_001 lines 500-523): the loop
`while (s < e)` with the early-equality probe at `s`, the `halfway == s`
break, and the half-interval choice by the sign of the comparison. -/
def indexOfSortedAux (compareElements : Comparator) (objectToLookFor : Slot)
    (els : List Slot) (s e : Nat) : Int :=
  if s < e then
    if compareElements objectToLookFor (els.getD s none) = 0 then (s : Int)
    else
      let halfway := (s + e) / 2
      if halfway = s then -1
      else if 0 ≤ compareElements objectToLookFor (els.getD halfway none) then
        indexOfSortedAux compareElements objectToLookFor els halfway e
      else
        indexOfSortedAux compareElements objectToLookFor els s halfway
  else -1
termination_by e - s
decreasing_by
  · omega
  · omega

/-- Models `indexOfSorted (comparator, objectToLookFor)` (part_001 lines
500-523). -/
def indexOfSorted (a : ReferenceCountedArray) (compareElements : Comparator)
    (objectToLookFor : Slot) : Int :=
  indexOfSortedAux compareElements objectToLookFor a.elements 0 a.numUsed

/-- Modelled from the spec: `findInsertIndexInSortedArray` lives in the sorting
support header of this repository, which is not under `src/`.  Per §4.4,
`addSorted` "binary-search[es] the insertion point" in the sorted range
`[firstElement, lastElement)`; on a sorted range that point is the number of
elements that compare less-or-equal to the new element, which is how we model
it. -/
def findInsertIndexInSortedArray (compareElements : Comparator)
    (els : List Slot) (newElement : Slot) (firstElement lastElement : Nat) : Nat :=
  firstElement +
    ((els.drop firstElement).take (lastElement - firstElement)).countP
      (fun e => decide (0 ≤ compareElements newElement e))

/-- Models `addSorted (comparator, newObject)` (part_001 lines 463-469):
find the insertion point over `[0, numUsed)` and `insert` there, returning the
chosen index. -/
def addSorted (h : Heap) (a : ReferenceCountedArray)
    (compareElements : Comparator) (newObject : Slot) :
    Int × Heap × ReferenceCountedArray :=
  let index := findInsertIndexInSortedArray compareElements a.elements newObject
    0 a.numUsed
  let ha := insert h a (index : Int) newObject
  ((index : Int), ha.1, ha.2)

/-- Array built by a sequence of `addSorted` calls with one fixed comparator,
starting from an empty array. -/
def buildSorted (h : Heap) (compareElements : Comparator) (xs : List Slot) :
    Heap × ReferenceCountedArray :=
  xs.foldl (fun acc x => (addSorted acc.1 acc.2 compareElements x).2) (h, ⟨[], 0⟩)

end ReferenceCountedArray

/-! ### Generic list helpers -/

theorem getD_take_of_lt (l : List Slot) (n i : Nat) (h : i < n) :
    (l.take n).getD i none = l.getD i none := by
  simp [List.getD_eq_getElem?_getD, List.getElem?_take, h]

theorem getD_set_ne (l : List Slot) (i j : Nat) (x : Slot) (h : i ≠ j) :
    (l.set i x).getD j none = l.getD j none := by
  simp [List.getD_eq_getElem?_getD, List.getElem?_set, h]

theorem getD_set_self (l : List Slot) (i : Nat) (x : Slot) (h : i < l.length) :
    (l.set i x).getD i none = x := by
  simp [List.getD_eq_getElem?_getD, List.getElem?_set, h]

theorem insertIdx_eq_append (l : List Slot) (i : Nat) (x : Slot)
    (h : i ≤ l.length) : l.insertIdx i x = l.take i ++ [x] ++ l.drop i := by
  induction l generalizing i with
  | nil =>
      have h0 : i = 0 := Nat.le_zero.mp h
      subst h0
      simp [List.insertIdx]
  | cons y t ih =>
      cases i with
      | zero => simp [List.insertIdx]
      | succ j =>
          rw [List.insertIdx_succ_cons]
          simp only [List.take_succ_cons, List.drop_succ_cons, List.cons_append]
          rw [ih j (by simpa using h)]

/-! ### Heap lemmas -/

namespace Heap

theorem lookup_nil (o : ObjId) : lookup [] o = none := rfl

theorem lookup_cons (p : ObjId × Nat) (t : Heap) (o : ObjId) :
    lookup (p :: t) o = if p.1 = o then some p.2 else lookup t o := by
  by_cases h1 : p.1 = o <;> simp [lookup, List.find?_cons, h1]

theorem keys_cons (p : ObjId × Nat) (t : Heap) :
    keys (p :: t) = p.1 :: keys t := rfl

theorem keys_incReferenceCount (h : Heap) (o : ObjId) :
    keys (incReferenceCount h o) = keys h := by
  unfold keys incReferenceCount
  rw [List.map_map]
  apply List.map_congr_left
  intro p _
  by_cases hp : p.1 = o <;> simp [hp]

theorem incReferenceCount_cons (p : ObjId × Nat) (t : Heap) (o : ObjId) :
    incReferenceCount (p :: t) o =
      (if p.1 = o then (p.1, p.2 + 1) else p) :: incReferenceCount t o := rfl

theorem releaseObject_cons (p : ObjId × Nat) (t : Heap) (o : ObjId) :
    releaseObject (p :: t) o =
      (if p.1 = o then (if p.2 = 1 then [] else [(p.1, p.2 - 1)]) else [p])
        ++ releaseObject t o := by
  unfold releaseObject
  rw [List.filterMap_cons]
  by_cases h1 : p.1 = o
  · by_cases h2 : p.2 = 1 <;> simp [h1, h2]
  · simp [h1]

theorem lookup_incReferenceCount (h : Heap) (o oq : ObjId) :
    lookup (incReferenceCount h o) oq =
      if oq = o then (lookup h oq).map (· + 1) else lookup h oq := by
  induction h with
  | nil => simp [incReferenceCount, lookup_nil]
  | cons p t ih =>
      rw [incReferenceCount_cons]
      by_cases h1 : p.1 = o <;> by_cases h2 : p.1 = oq
      · have ho : oq = o := by rw [← h2]; exact h1
        simp [lookup_cons, h1, h2, ho]
      · have ho : ¬ oq = o := by
          intro hc; exact h2 (by rw [h1, ← hc])
        have ho2 : ¬ o = oq := fun hc => ho hc.symm
        simp [lookup_cons, h1, h2, ho, ho2, ih]
      · have ho : ¬ oq = o := fun hc => h1 (h2.trans hc)
        simp [lookup_cons, h1, h2, ho]
      · simp [lookup_cons, h1, h2, ih]

theorem lookup_eq_none_iff (h : Heap) (o : ObjId) :
    lookup h o = none ↔ o ∉ keys h := by
  induction h with
  | nil => simp [lookup_nil, keys]
  | cons p t ih =>
      rw [lookup_cons, keys_cons]
      by_cases h1 : p.1 = o
      · simp [h1]
      · simp only [if_neg h1, ih, List.mem_cons, not_or]
        constructor
        · exact fun hni => ⟨fun hc => h1 hc.symm, hni⟩
        · exact fun hni => hni.2

theorem lookup_eq_of_mem (h : Heap) (o : ObjId) (k : Nat)
    (hnd : (keys h).Nodup) (hm : (o, k) ∈ h) : lookup h o = some k := by
  induction h with
  | nil => simp at hm
  | cons p t ih =>
      rw [keys_cons, List.nodup_cons] at hnd
      rw [lookup_cons]
      rcases List.mem_cons.mp hm with heq | hm2
      · rw [← heq]; simp
      · have hne : p.1 ≠ o := by
          intro hc
          exact hnd.1 (by rw [hc]; exact List.mem_map_of_mem (·.1) hm2)
        rw [if_neg hne]
        exact ih hnd.2 hm2

theorem releaseObject_of_not_mem (h : Heap) (o : ObjId) (hm : o ∉ keys h) :
    releaseObject h o = h := by
  induction h with
  | nil => rfl
  | cons p t ih =>
      rw [keys_cons, List.mem_cons, not_or] at hm
      rw [releaseObject_cons, if_neg (fun hc => hm.1 hc.symm), ih hm.2]
      rfl

theorem keys_releaseObject_sublist (h : Heap) (o : ObjId) :
    (keys (releaseObject h o)).Sublist (keys h) := by
  induction h with
  | nil => simp [keys, releaseObject]
  | cons p t ih =>
      rw [releaseObject_cons, keys_cons]
      by_cases h1 : p.1 = o
      · by_cases h2 : p.2 = 1
        · simp only [h1, h2, if_true, ite_true, List.nil_append]
          exact ih.cons o
        · simp only [h1, h2, if_true, ite_false, if_false, List.cons_append,
            List.nil_append]
          show (keys ((o, p.2 - 1) :: releaseObject t o)).Sublist (o :: keys t)
          rw [keys_cons]
          exact ih.cons₂ o
      · simp only [h1, if_false, ite_false, List.cons_append, List.nil_append]
        show (keys (p :: releaseObject t o)).Sublist (p.1 :: keys t)
        rw [keys_cons]
        exact ih.cons₂ p.1

theorem nodup_keys_releaseObject (h : Heap) (o : ObjId)
    (hnd : (keys h).Nodup) : (keys (releaseObject h o)).Nodup :=
  (keys_releaseObject_sublist h o).nodup hnd

theorem lookup_releaseObject (h : Heap) (o oq : ObjId)
    (hnd : (keys h).Nodup) :
    lookup (releaseObject h o) oq =
      if oq = o then
        match lookup h o with
        | none => none
        | some k => if k = 1 then none else some (k - 1)
      else lookup h oq := by
  induction h with
  | nil => simp only [releaseObject, List.filterMap_nil, lookup_nil]; split <;> rfl
  | cons p t ih =>
      rw [keys_cons, List.nodup_cons] at hnd
      have ih2 := ih hnd.2
      rw [releaseObject_cons]
      by_cases h1 : p.1 = o
      · have hto : lookup t o = none := by
          rw [lookup_eq_none_iff]; rw [← h1]; exact hnd.1
        by_cases h2 : p.2 = 1
        · simp only [h1, h2, if_true, ite_true, List.nil_append]
          rw [releaseObject_of_not_mem t o (by rw [← h1]; exact hnd.1)]
          by_cases h3 : oq = o
          · simp [lookup_cons, h1, h2, h3, hto]
          · have ho2 : ¬ o = oq := fun hc => h3 hc.symm
            simp [lookup_cons, h1, h3, ho2]
        · simp only [h1, h2, if_true, ite_false, if_false, List.cons_append,
            List.nil_append]
          by_cases h3 : oq = o
          · simp [lookup_cons, h1, h2, h3, hto]
          · have ho2 : ¬ o = oq := fun hc => h3 hc.symm
            have ho5 : ¬ p.1 = oq := fun hc => h3 (hc.symm.trans h1)
            simp [lookup_cons, h3, ho2, ho5, ih2]
      · by_cases h3 : oq = p.1
        · have ho4 : ¬ oq = o := fun hc => h1 (by rw [← h3]; exact hc)
          simp only [h1, if_false, ite_false, List.cons_append, List.nil_append]
          simp [lookup_cons, h3.symm, ho4]
        · have ho3 : ¬ p.1 = oq := fun hc => h3 hc.symm
          simp only [h1, if_false, ite_false, List.cons_append, List.nil_append]
          by_cases h4 : oq = o
          · subst h4
            simp [lookup_cons, ho3, h1, ih2]
          · simp [lookup_cons, ho3, h1, h4, ih2]

theorem mem_keys_iff_lookup (h : Heap) (o : ObjId) :
    o ∈ keys h ↔ lookup h o ≠ none := by
  simp [ne_eq, lookup_eq_none_iff, not_not]

theorem lookup_release_inc_self (h : Heap) (o : ObjId) (k : Nat)
    (hnd : (keys h).Nodup) (hk : lookup h o = some k) (h1 : 1 ≤ k) :
    lookup (releaseObject (incReferenceCount h o) o) o = some k := by
  rw [lookup_releaseObject _ _ _ (by rw [keys_incReferenceCount]; exact hnd)]
  rw [if_pos rfl, lookup_incReferenceCount, if_pos rfl, hk]
  have hne : ¬ (k + 1 = 1) := by omega
  simp [hne]

end Heap

namespace ReferenceCountedArray

/-! ### C3: the bisection rule, written from the spec's words -/

/-- Modelled from the spec (§4.4), as the reference algorithm of the
refinement claim C3: "start with `s=0, e=length`; if `target` compares equal
to the element at `s`, return `s` immediately; otherwise compute
`halfway=(s+e)/2`; if `halfway == s`, stop and report not found; otherwise
move `s` to `halfway` if `target ≥ element[halfway]`, else move `e` to
`halfway`", repeating while `s < e`. -/
def bisectionRuleSpec (compareElements : Comparator) (target : Slot)
    (element : Nat → Slot) (s e : Nat) : Int :=
  if s < e then
    if compareElements target (element s) = 0 then (s : Int)
    else
      let halfway := (s + e) / 2
      if halfway = s then -1
      else if 0 ≤ compareElements target (element halfway) then
        bisectionRuleSpec compareElements target element halfway e
      else
        bisectionRuleSpec compareElements target element s halfway
  else -1
termination_by e - s
decreasing_by
  · omega
  · omega

theorem indexOfSortedAux_eq_bisectionRuleSpec (compareElements : Comparator)
    (x : Slot) (els : List Slot) :
    ∀ (m s e : Nat), e - s ≤ m →
      indexOfSortedAux compareElements x els s e =
        bisectionRuleSpec compareElements x (fun i => els.getD i none) s e := by
  intro m
  induction m with
  | zero =>
      intro s e hm
      rw [indexOfSortedAux.eq_def, bisectionRuleSpec.eq_def]
      have hne : ¬ s < e := by omega
      rw [if_neg hne, if_neg hne]
  | succ m ih =>
      intro s e hm
      rw [indexOfSortedAux.eq_def, bisectionRuleSpec.eq_def]
      by_cases h1 : s < e
      · rw [if_pos h1, if_pos h1]
        by_cases h2 : compareElements x (els.getD s none) = 0
        · rw [if_pos h2, if_pos h2]
        · rw [if_neg h2, if_neg h2]
          by_cases h3 : (s + e) / 2 = s
          · simp only [h3, if_true, ite_true]
          · simp only [h3, if_false, ite_false]
            by_cases h4 : 0 ≤ compareElements x (els.getD ((s + e) / 2) none)
            · rw [if_pos h4, if_pos h4]
              exact ih ((s + e) / 2) e (by omega)
            · rw [if_neg h4, if_neg h4]
              exact ih s ((s + e) / 2) (by omega)
      · rw [if_neg h1, if_neg h1]

/-- C3: `indexOfSorted` implements, for every array and comparator, exactly
the non-classical bisection rule stated in the spec (start `s=0, e=length`;
equality probe at `s`; stop with "not found" when `halfway == s`; move `s` up
when the target compares `≥` the halfway element, else move `e` down; repeat
while `s < e`).  The embedded code function equals the reference algorithm on
all inputs. -/
theorem indexOfSorted_eq_bisectionRuleSpec (a : ReferenceCountedArray)
    (compareElements : Comparator) (x : Slot) :
    indexOfSorted a compareElements x =
      bisectionRuleSpec compareElements x (fun i => a.elements.getD i none)
        0 a.numUsed :=
  indexOfSortedAux_eq_bisectionRuleSpec compareElements x a.elements
    a.numUsed 0 a.numUsed (by omega)

/-! ### C9: checked reads -/

/-- C9: checked reads never signal errors.  For every index that is negative
or at least `length`, `getObjectPointer` (the checked accessor behind
`operator[]`) returns a null handle, and on an empty array `getFirst` and
`getLast` return a null handle.  These accessors are `const` reads: in this
embedding they are pure functions of the array, so the array's length,
capacity, contents and every reference count are unchanged by construction
(they neither take nor produce a `Heap`). -/
theorem checked_reads_return_null (a : ReferenceCountedArray) (index : Int) :
    ((index < 0 ∨ (a.numUsed : Int) ≤ index) → a.getObjectPointer index = none) ∧
    (a.numUsed = 0 → a.getFirst = none ∧ a.getLast = none) := by
  constructor
  · intro hidx
    unfold getObjectPointer
    rw [if_neg]
    simp only [isPositiveAndBelow, Bool.and_eq_true, decide_eq_true_eq, not_and]
    intro h0
    omega
  · intro h0
    constructor <;> simp [getFirst, getLast, h0]

/-- Witness for C9 at concrete inputs: index `2` is out of range for a
one-element array, and the empty array has no first or last element. -/
theorem checked_reads_return_null_witness :
    (((2 : Int) < 0 ∨ (((⟨[some 5], 1⟩ : ReferenceCountedArray).numUsed : Int) ≤ 2)) ∧
      (⟨[some 5], 1⟩ : ReferenceCountedArray).getObjectPointer 2 = none) ∧
    ((⟨[], 0⟩ : ReferenceCountedArray).numUsed = 0 ∧
      (⟨[], 0⟩ : ReferenceCountedArray).getFirst = none ∧
      (⟨[], 0⟩ : ReferenceCountedArray).getLast = none) :=
  ⟨⟨by decide, (checked_reads_return_null ⟨[some 5], 1⟩ 2).1 (by decide)⟩,
   ⟨by decide, (checked_reads_return_null ⟨[], 0⟩ 0).2 (by decide)⟩⟩

/-! ### C4: removeRange clamping -/

theorem removeRange_numUsed (h : Heap) (a : ReferenceCountedArray)
    (startIndex numberToRemove : Int) :
    (removeRange h a startIndex numberToRemove).2.numUsed =
      a.numUsed -
        ((jlimit 0 a.numUsed (startIndex + numberToRemove)).toNat -
          (jlimit 0 a.numUsed startIndex).toNat) := by
  have hb1 : 0 ≤ jlimit 0 a.numUsed startIndex ∧
      jlimit 0 a.numUsed startIndex ≤ a.numUsed := by
    unfold jlimit; split <;> [omega; (split <;> omega)]
  have hb2 : 0 ≤ jlimit 0 a.numUsed (startIndex + numberToRemove) ∧
      jlimit 0 a.numUsed (startIndex + numberToRemove) ≤ a.numUsed := by
    unfold jlimit; split <;> [omega; (split <;> omega)]
  simp only [removeRange]
  split
  all_goals simp only
  all_goals omega

/-- Counterexample to C4 as stated: on an array of length `996`,
`removeRange (-5, 1000)` clamps the range to `[0, 995)` and leaves one
element, not zero. -/
theorem removeRange_clamp_cex :
    (ReferenceCountedArray.removeRange []
        ⟨List.replicate 996 none, 996⟩ (-5) 1000).2.numUsed ≠ 0 := by
  rw [removeRange_numUsed]
  decide

/-- C4 (amended): for every heap and every array whose length is at most
`995` (so that the clamped end `startIndex + numberToRemove = 995` covers the
whole array), `removeRange (-5, 1000)` removes all elements and leaves
`length == 0`. -/
theorem removeRange_neg5_1000_clears (h : Heap) (a : ReferenceCountedArray)
    (hn : a.numUsed ≤ 995) :
    (removeRange h a (-5) 1000).2.numUsed = 0 ∧
    (removeRange h a (-5) 1000).2.used = [] := by
  have hu : (removeRange h a (-5) 1000).2.numUsed = 0 := by
    rw [removeRange_numUsed]
    unfold jlimit
    split <;> [omega; (split <;> [skip; (split <;> omega)])]
    split <;> omega
  exact ⟨hu, by simp [used, hu]⟩

/-- Witness for the amended C4 at a concrete input: a two-element array is
cleared completely. -/
theorem removeRange_neg5_1000_clears_witness :
    ((⟨[some 1, none], 2⟩ : ReferenceCountedArray).numUsed ≤ 995) ∧
    (ReferenceCountedArray.removeRange [(1, 1)]
        ⟨[some 1, none], 2⟩ (-5) 1000).2.numUsed = 0 ∧
    (ReferenceCountedArray.removeRange [(1, 1)]
        ⟨[some 1, none], 2⟩ (-5) 1000).2.used = [] :=
  ⟨by decide, removeRange_neg5_1000_clears [(1, 1)] ⟨[some 1, none], 2⟩ (by decide)⟩

/-! ### C5: ordering of nulling and release inside removeRange -/

/-- Check of one trace position for the ordering asserted by claim C5: if the
event at position `p` is a release of slot `i`, then some nulling of slot `i`
occurs strictly earlier in the trace. -/
def releasedSlotWasNulledBefore (tr : List RemoveEvent) (p : Nat) : Bool :=
  match tr.getD p (RemoveEvent.slotNulled 0) with
  | RemoveEvent.objectReleased i _ => decide (RemoveEvent.slotNulled i ∈ tr.take p)
  | RemoveEvent.slotNulled _ => true

/-- Formalisation of the ordering asserted by claim C5 over an event trace:
every slot in the range is set to null before the release of that slot's
former occupant is performed. -/
def nullPrecedesRelease (tr : List RemoveEvent) : Prop :=
  ∀ p, p < tr.length → releasedSlotWasNulledBefore tr p = true

theorem flatMap_congr_mem (l : List Nat) (f g : Nat → List RemoveEvent)
    (h : ∀ a ∈ l, f a = g a) : l.flatMap f = l.flatMap g := by
  induction l with
  | nil => rfl
  | cons a t ih =>
      rw [List.flatMap_cons, List.flatMap_cons, h a (List.mem_cons_self a t),
        ih (fun b hb => h b (List.mem_cons_of_mem a hb))]

/-- Per-slot event block of the release loop: the occupant's release followed
immediately by the nulling of its slot, nothing for an already-null slot. -/
def slotEvents (els : List Slot) (i : Nat) : List RemoveEvent :=
  match els.getD i none with
  | some o => [RemoveEvent.objectReleased i o, RemoveEvent.slotNulled i]
  | none => []

theorem removeRangeLoop_trace (k : Nat) :
    ∀ (s : Nat) (h : Heap) (els : List Slot) (tr : List RemoveEvent),
      ((List.range' s k).foldl removeRangeStep (h, els, tr)).2.2 =
        tr ++ (List.range' s k).flatMap (slotEvents els) := by
  induction k with
  | zero => intro s h els tr; simp [List.range']
  | succ k ih =>
      intro s h els tr
      rw [List.range'_succ, List.foldl_cons, List.flatMap_cons]
      have hstep : removeRangeStep (h, els, tr) s =
          match els.getD s none with
          | some o => (Heap.releaseObject h o, els.set s none,
              tr ++ [RemoveEvent.objectReleased s o, RemoveEvent.slotNulled s])
          | none => (h, els, tr) := rfl
      cases hs : els.getD s none with
      | none =>
          rw [hstep, hs]
          rw [ih (s + 1) h els tr]
          have : slotEvents els s = [] := by unfold slotEvents; rw [hs]
          rw [this, List.nil_append]
      | some o =>
          rw [hstep, hs]
          rw [ih (s + 1) (Heap.releaseObject h o) (els.set s none)
            (tr ++ [RemoveEvent.objectReleased s o, RemoveEvent.slotNulled s])]
          have hcong : (List.range' (s + 1) k).flatMap (slotEvents (els.set s none)) =
              (List.range' (s + 1) k).flatMap (slotEvents els) := by
            apply flatMap_congr_mem
            intro a ha
            have hge : s + 1 ≤ a := by
              rcases List.mem_range'.mp ha with ⟨i, _, rfl⟩
              omega
            unfold slotEvents
            rw [getD_set_ne els s a none (by omega)]
          rw [hcong]
          have : slotEvents els s =
              [RemoveEvent.objectReleased s o, RemoveEvent.slotNulled s] := by
            unfold slotEvents; rw [hs]
          rw [this, List.append_assoc]

/-- Counterexample to C5 as stated: in the call `removeRange (0, 1)` on a
one-element array holding object `1` (a non-empty clamped range), the release
of the occupant of slot `0` appears in the event trace before the nulling of
slot `0`, so the slot is not set to null before the release. -/
theorem removeRange_null_order_cex :
    ¬ nullPrecedesRelease
        (ReferenceCountedArray.removeRangeEvents [(1, 1)] ⟨[some 1], 1⟩ 0 1) := by
  intro hcl
  have := hcl 0 (by decide)
  revert this
  decide

/-- C5 (amended): in every `removeRange` call the event trace of the release
loop is, slot by slot in increasing order over the clamped range, the release
of the slot's former occupant followed immediately by the nulling of that
slot (and nothing for already-null slots).  So each slot is nulled only after
its own occupant's release, but before any later slot's occupant is released:
a re-entrant destructor can observe the handle of the object currently being
destroyed, yet never the dangling handle of a previously released slot. -/
theorem removeRangeEvents_characterisation (h : Heap)
    (a : ReferenceCountedArray) (startIndex numberToRemove : Int) :
    removeRangeEvents h a startIndex numberToRemove =
      (List.range' (jlimit 0 a.numUsed startIndex).toNat
          ((jlimit 0 a.numUsed (startIndex + numberToRemove)).toNat -
            (jlimit 0 a.numUsed startIndex).toNat)).flatMap
        (slotEvents a.elements) := by
  simp only [removeRangeEvents]
  split
  · rw [removeRangeLoop, removeRangeLoop_trace, List.nil_append]
  · rename_i hlt
    have hle : jlimit 0 a.numUsed (startIndex + numberToRemove) ≤
        jlimit 0 a.numUsed startIndex := by omega
    have : (jlimit 0 a.numUsed (startIndex + numberToRemove)).toNat -
        (jlimit 0 a.numUsed startIndex).toNat = 0 := by omega
    rw [this]
    rfl

/-! ### C8: move -/

theorem take_cons_getD_drop (els : List Slot) (i : Nat) (hi : i < els.length) :
    els.take i ++ [els.getD i none] ++ els.drop (i + 1) = els := by
  have h1 : els.take (i + 1) = els.take i ++ [els.getD i none] := by
    rw [List.take_succ]
    congr 1
    rw [List.getElem?_eq_getElem hi, List.getD_eq_getElem _ _ hi]
    rfl
  rw [← h1, List.take_append_drop]

theorem eraseIdx_insertIdx_self (u : List Slot) (i : Nat) (hi : i < u.length) :
    (u.eraseIdx i).insertIdx i (u.getD i none) = u := by
  rw [List.eraseIdx_eq_take_drop_succ,
    insertIdx_eq_append _ _ _ (by simp only [List.length_append,
      List.length_take, List.length_drop]; omega)]
  rw [List.take_append_of_le_length (by simp only [List.length_take]; omega),
    List.take_take, Nat.min_self]
  rw [List.drop_append_of_le_length (by simp only [List.length_take]; omega),
    List.drop_take, Nat.sub_self, List.take_zero, List.nil_append]
  exact take_cons_getD_drop u i hi

theorem move_splice_left (els : List Slot) (n cur toI : Nat) (v : Slot)
    (hcn : cur < n) (htn : toI < n) (hct : cur < toI) (hnl : n ≤ els.length) :
    (els.take cur ++ (els.drop (cur + 1)).take (toI - cur) ++ [v]
        ++ els.drop (toI + 1)).take n
      = ((els.take n).eraseIdx cur).insertIdx toI v := by
  rw [List.eraseIdx_eq_take_drop_succ,
    insertIdx_eq_append _ _ _ (by simp only [List.length_append,
      List.length_take, List.length_drop]; omega)]
  apply List.ext_getElem?
  intro j
  simp only [List.getElem?_append, List.getElem?_take, List.getElem?_drop,
    List.length_append, List.length_take, List.length_drop, List.length_cons,
    List.length_nil, List.getElem?_cons_zero, List.getElem?_cons_succ,
    List.take_take, List.drop_take, List.drop_drop]
  split_ifs <;> first
    | rfl
    | omega
    | (congr 1; omega)

theorem move_splice_right (els : List Slot) (n cur toI : Nat) (v : Slot)
    (hcn : cur < n) (htn : toI < n) (hct : toI ≤ cur) (hnl : n ≤ els.length) :
    (els.take toI ++ [v] ++ (els.drop toI).take (cur - toI)
        ++ els.drop (cur + 1)).take n
      = ((els.take n).eraseIdx cur).insertIdx toI v := by
  rw [List.eraseIdx_eq_take_drop_succ,
    insertIdx_eq_append _ _ _ (by simp only [List.length_append,
      List.length_take, List.length_drop]; omega)]
  apply List.ext_getElem?
  intro j
  simp only [List.getElem?_append, List.getElem?_take, List.getElem?_drop,
    List.length_append, List.length_take, List.length_drop, List.length_cons,
    List.length_nil, List.getElem?_cons_zero, List.getElem?_cons_succ,
    List.take_take, List.drop_take, List.drop_drop]
  split_ifs <;> first
    | rfl
    | omega
    | (congr 1; omega)

/-- C8: `move (from, to)` is a no-op when `from == to` or `from` is out of
range; it never changes `numUsed`; when `from` is valid, the occupied prefix
becomes the old prefix with the element at `from` taken out and re-inserted at
`to` (clamped to the last valid index when `to` is out of range), so the
intervening elements shift by one slot; and on `[0,1,2,3,4,5]`, `move (2, 4)`
yields `[0,1,3,4,2,5]`.  `move` touches no reference count: it is a pure
function of the array that neither takes nor returns a `Heap`. -/
theorem move_semantics (a : ReferenceCountedArray)
    (currentIndex newIndexArg : Int) :
    (currentIndex = newIndexArg → move a currentIndex newIndexArg = a) ∧
    (isPositiveAndBelow currentIndex a.numUsed = false →
      move a currentIndex newIndexArg = a) ∧
    ((move a currentIndex newIndexArg).numUsed = a.numUsed) ∧
    (a.numUsed ≤ a.elements.length →
      isPositiveAndBelow currentIndex a.numUsed = true →
      (move a currentIndex newIndexArg).used =
        ((a.used.eraseIdx currentIndex.toNat).insertIdx
          (if isPositiveAndBelow newIndexArg a.numUsed then newIndexArg.toNat
            else a.numUsed - 1)
          (a.used.getD currentIndex.toNat none))) ∧
    (move ⟨[some 0, some 1, some 2, some 3, some 4, some 5], 6⟩ 2 4 =
      ⟨[some 0, some 1, some 3, some 4, some 2, some 5], 6⟩) := by
  refine ⟨?_, ?_, ?_, ?_, by decide⟩
  · intro heq
    simp [move, heq]
  · intro hpos
    unfold move
    split
    · rw [if_neg (by simp [hpos])]
    · rfl
  · unfold move
    split
    · split
      · rfl
      · rfl
    · rfl
  · intro hm hpos
    have hb : 0 ≤ currentIndex ∧ currentIndex < (a.numUsed : Int) := by
      simpa [isPositiveAndBelow] using hpos
    have hcurn : currentIndex.toNat < a.numUsed := by omega
    have hgd : a.used.getD currentIndex.toNat none =
        a.elements.getD currentIndex.toNat none :=
      getD_take_of_lt _ _ _ hcurn
    by_cases heq : currentIndex = newIndexArg
    · have hmv : move a currentIndex newIndexArg = a := by simp [move, heq]
      have hpos2 : isPositiveAndBelow newIndexArg a.numUsed = true := by
        rw [← heq]; exact hpos
      rw [hmv, if_pos hpos2, ← heq]
      exact (eraseIdx_insertIdx_self a.used currentIndex.toNat
        (by simp only [used, List.length_take]; omega)).symm
    · simp only [move]
      rw [if_pos heq, if_pos hpos]
      set toI : Nat := if isPositiveAndBelow newIndexArg a.numUsed then
        newIndexArg.toNat else a.numUsed - 1 with htoI
      have htn : toI < a.numUsed := by
        rw [htoI]
        split
        · rename_i hin
          have : 0 ≤ newIndexArg ∧ newIndexArg < (a.numUsed : Int) := by
            simpa [isPositiveAndBelow] using hin
          omega
        · omega
      by_cases hct : currentIndex.toNat < toI
      · rw [if_pos hct]
        show (_ ++ _ ++ [_] ++ _).take a.numUsed = _
        rw [hgd]
        exact move_splice_left a.elements a.numUsed currentIndex.toNat toI _
          hcurn htn hct hm
      · rw [if_neg hct]
        show (_ ++ [_] ++ _ ++ _).take a.numUsed = _
        rw [hgd]
        exact move_splice_right a.elements a.numUsed currentIndex.toNat toI _
          hcurn htn (by omega) hm

/-- Witness for C8 at a concrete input: moving index `1` of a three-element
array to the out-of-range destination `7` clamps to the last index and shifts
the tail. -/
theorem move_semantics_witness :
    ((⟨[some 3, some 4, some 5], 3⟩ : ReferenceCountedArray).numUsed ≤
      (⟨[some 3, some 4, some 5], 3⟩ : ReferenceCountedArray).elements.length) ∧
    isPositiveAndBelow 1 (⟨[some 3, some 4, some 5], 3⟩ :
      ReferenceCountedArray).numUsed = true ∧
    (move ⟨[some 3, some 4, some 5], 3⟩ 1 7).used =
      (((⟨[some 3, some 4, some 5], 3⟩ :
          ReferenceCountedArray).used.eraseIdx (1 : Int).toNat).insertIdx
        (if isPositiveAndBelow 7 (⟨[some 3, some 4, some 5], 3⟩ :
            ReferenceCountedArray).numUsed then (7 : Int).toNat
          else (⟨[some 3, some 4, some 5], 3⟩ :
            ReferenceCountedArray).numUsed - 1)
        ((⟨[some 3, some 4, some 5], 3⟩ :
          ReferenceCountedArray).used.getD (1 : Int).toNat none)) :=
  ⟨by decide, by decide,
    (move_semantics ⟨[some 3, some 4, some 5], 3⟩ 1 7).2.2.2.1
      (by decide) (by decide)⟩

/-! ### C7: removeAndReturn -/

/-- C7: for every index, the array state after `removeAndReturn` equals the
state after `remove`; the returned handle is exactly the checked read of the
removed slot (null when out of range); and when an in-range slot holds a live
object, that object's reference count after the call equals its count before
(`removedItem = o` increments it once before `releaseObject` decrements it,
transferring one increment of ownership to the returned handle), so an object
whose only reference was the array's single slot (count 1) is not destroyed
and is returned alive. -/
theorem removeAndReturn_semantics (h : Heap) (a : ReferenceCountedArray)
    (indexToRemove : Int) :
    ((removeAndReturn h a indexToRemove).2.2 = (remove h a indexToRemove).2) ∧
    ((removeAndReturn h a indexToRemove).1 =
      a.getObjectPointer indexToRemove) ∧
    (∀ o k, isPositiveAndBelow indexToRemove a.numUsed = true →
      a.elements.getD indexToRemove.toNat none = some o →
      (Heap.keys h).Nodup → Heap.lookup h o = some k → 1 ≤ k →
      Heap.lookup (removeAndReturn h a indexToRemove).2.1 o = some k) := by
  refine ⟨?_, ?_, ?_⟩
  · unfold removeAndReturn remove
    by_cases hc : isPositiveAndBelow indexToRemove a.numUsed = true <;>
      simp [hc]
  · unfold removeAndReturn getObjectPointer
    by_cases hc : isPositiveAndBelow indexToRemove a.numUsed = true <;>
      simp [hc]
  · intro o k hc hgd hnd hlk hk
    unfold removeAndReturn
    rw [if_pos hc]
    simp only [hgd]
    exact Heap.lookup_release_inc_self h o k hnd hlk hk

/-- Witness for C7 at a concrete input: removing the only slot of an array
whose occupant has reference count `1` returns the object alive with count
`1`. -/
theorem removeAndReturn_semantics_witness :
    (isPositiveAndBelow 0 (⟨[some 7], 1⟩ :
        ReferenceCountedArray).numUsed = true) ∧
    ((⟨[some 7], 1⟩ : ReferenceCountedArray).elements.getD (0 : Int).toNat none
      = some 7) ∧
    (Heap.keys [(7, 1)]).Nodup ∧
    Heap.lookup [(7, 1)] 7 = some 1 ∧
    Heap.lookup (ReferenceCountedArray.removeAndReturn [(7, 1)]
        ⟨[some 7], 1⟩ 0).2.1 7 = some 1 :=
  ⟨by decide, by decide, by decide, by decide,
    (removeAndReturn_semantics [(7, 1)] ⟨[some 7], 1⟩ 0).2.2 7 1
      (by decide) (by decide) (by decide) (by decide) (by decide)⟩

/-! ### C6: set -/

/-- C6: `set (index, element)` is a no-op for a negative index; for an
in-bounds index the resulting array is the old one with just that slot
overwritten (`numUsed` unchanged); the new element's count is incremented
before the prior occupant is released, so setting a slot to its current live
occupant leaves that object's reference count unchanged and alive with the
slot still holding it; and for an index at or past `numUsed` the call behaves
exactly as `add`, appending at position `length` regardless of the requested
index. -/
theorem set_semantics (h : Heap) (a : ReferenceCountedArray)
    (indexToChange : Int) (newObject : Slot) :
    (indexToChange < 0 → set h a indexToChange newObject = (h, a)) ∧
    (0 ≤ indexToChange → indexToChange < (a.numUsed : Int) →
      (set h a indexToChange newObject).2 =
        ⟨a.elements.set indexToChange.toNat newObject, a.numUsed⟩) ∧
    (∀ o k, 0 ≤ indexToChange → indexToChange < (a.numUsed : Int) →
      a.elements.getD indexToChange.toNat none = some o →
      newObject = some o → (Heap.keys h).Nodup → Heap.lookup h o = some k →
      1 ≤ k →
      Heap.lookup (set h a indexToChange newObject).1 o = some k ∧
      (set h a indexToChange newObject).2.elements.getD indexToChange.toNat
        none = some o) ∧
    (0 ≤ indexToChange → (a.numUsed : Int) ≤ indexToChange →
      set h a indexToChange newObject = add h a newObject) := by
  refine ⟨?_, ?_, ?_, ?_⟩
  · intro hneg
    unfold set
    rw [if_neg (by omega)]
  · intro h0 hlt
    unfold set
    rw [if_pos h0, if_pos hlt]
  · intro o k h0 hlt hgd hnew hnd hlk hk
    have hlen : indexToChange.toNat < a.elements.length := by
      by_contra hge
      rw [List.getD_eq_default _ _ (by omega)] at hgd
      exact Option.noConfusion hgd
    constructor
    · unfold set
      rw [if_pos h0, if_pos hlt]
      simp only [hnew, hgd]
      exact Heap.lookup_release_inc_self h o k hnd hlk hk
    · unfold set
      rw [if_pos h0, if_pos hlt]
      simp only
      rw [← hnew, getD_set_self _ _ _ hlen, hnew]
  · intro h0 hge
    unfold set add
    rw [if_pos h0, if_neg (by omega)]

/-- Witness for C6 at a concrete input: setting the only slot of a
one-element array to its current occupant (reference count `1`) leaves the
count at `1` and the slot holding the object. -/
theorem set_semantics_witness :
    ((0 : Int) ≤ 0) ∧
    ((0 : Int) < ((⟨[some 7], 1⟩ : ReferenceCountedArray).numUsed : Int)) ∧
    ((⟨[some 7], 1⟩ : ReferenceCountedArray).elements.getD (0 : Int).toNat none
      = some 7) ∧
    (Heap.keys [(7, 1)]).Nodup ∧
    Heap.lookup [(7, 1)] 7 = some 1 ∧
    (Heap.lookup (ReferenceCountedArray.set [(7, 1)] ⟨[some 7], 1⟩ 0
        (some 7)).1 7 = some 1 ∧
      (ReferenceCountedArray.set [(7, 1)] ⟨[some 7], 1⟩ 0
        (some 7)).2.elements.getD (0 : Int).toNat none = some 7) :=
  ⟨by decide, by decide, by decide, by decide, by decide,
    (set_semantics [(7, 1)] ⟨[some 7], 1⟩ 0 (some 7)).2.2.1 7 1
      (by decide) (by decide) (by decide) (by decide) (by decide) (by decide)
      (by decide)⟩

/-! ### C10: self-assignment -/

/-- Check that a slot's handle is null or points at a live object with a
positive reference count. -/
def slotLive (h : Heap) (x : Slot) : Bool :=
  match x with
  | none => true
  | some o =>
      match Heap.lookup h o with
      | some k => decide (1 ≤ k)
      | none => false

theorem heap_map_pair_id (h : Heap) : h.map (fun p => (p.1, p.2)) = h := by
  induction h with
  | nil => rfl
  | cons p t ih => rw [List.map_cons, ih]

theorem keys_mapValue (h : Heap) (g : ObjId → Nat → Nat) :
    Heap.keys (h.map (fun p => (p.1, g p.1 p.2))) = Heap.keys h := by
  unfold Heap.keys
  rw [List.map_map]
  rfl

theorem lookup_mapValue (h : Heap) (g : ObjId → Nat → Nat) (o : ObjId) :
    Heap.lookup (h.map (fun p => (p.1, g p.1 p.2))) o =
      (Heap.lookup h o).map (g o) := by
  induction h with
  | nil => rfl
  | cons p t ih =>
      rw [List.map_cons, Heap.lookup_cons, Heap.lookup_cons]
      by_cases h1 : p.1 = o
      · subst h1; simp
      · simp [h1, ih]

theorem incAll_nil (h : Heap) : incAll h [] = h := rfl

theorem incAll_cons_some (h : Heap) (o : ObjId) (t : List Slot) :
    incAll h (some o :: t) = Heap.incReferenceCount (incAll h t) o := rfl

theorem incAll_cons_none (h : Heap) (t : List Slot) :
    incAll h (none :: t) = incAll h t := rfl

theorem releaseAll_nil (h : Heap) : releaseAll h [] = h := rfl

theorem releaseAll_cons_some (h : Heap) (o : ObjId) (t : List Slot) :
    releaseAll h (some o :: t) = Heap.releaseObject (releaseAll h t) o := rfl

theorem releaseAll_cons_none (h : Heap) (t : List Slot) :
    releaseAll h (none :: t) = releaseAll h t := rfl

theorem slotLive_some (h : Heap) (o : ObjId) :
    slotLive h (some o) =
      match Heap.lookup h o with
      | some k => decide (1 ≤ k)
      | none => false := rfl

theorem incAll_eq_map (h : Heap) (l : List Slot) :
    incAll h l = h.map (fun p => (p.1, p.2 + l.count (some p.1))) := by
  induction l with
  | nil =>
      rw [incAll_nil]
      symm
      have hz : ∀ p : ObjId × Nat,
          (p.1, p.2 + List.count (some p.1) ([] : List Slot)) = (p.1, p.2) := by
        intro p; simp
      simp only [hz]
      exact heap_map_pair_id h
  | cons x t ih =>
      cases x with
      | none =>
          rw [incAll_cons_none, ih]
          apply List.map_congr_left
          intro p _
          rw [List.count_cons]
          simp
      | some o =>
          rw [incAll_cons_some, ih]
          unfold Heap.incReferenceCount
          rw [List.map_map]
          apply List.map_congr_left
          intro p _
          simp only [Function.comp]
          by_cases hp : p.1 = o
          · rw [if_pos hp, List.count_cons]
            have hbe : (some o == some p.1) = true := by simp [hp.symm]
            rw [hbe]
            show (p.1, p.2 + List.count (some p.1) t + 1) =
              (p.1, p.2 + (List.count (some p.1) t + 1))
            rw [Nat.add_assoc]
          · rw [if_neg hp, List.count_cons]
            have hbe : (some o == some p.1) = false := by
              rw [beq_eq_false_iff_ne]
              intro hc
              exact hp (Option.some_inj.mp hc).symm
            rw [hbe]
            rfl

theorem filterMap_eq_map_of (l : Heap)
    (f : ObjId × Nat → Option (ObjId × Nat)) (g : ObjId × Nat → ObjId × Nat)
    (hfg : ∀ p ∈ l, f p = some (g p)) : l.filterMap f = l.map g := by
  induction l with
  | nil => rfl
  | cons p t ih =>
      rw [List.filterMap_cons, hfg p (List.mem_cons_self p t), List.map_cons,
        ih (fun q hq => hfg q (List.mem_cons_of_mem p hq))]

theorem releaseAll_eq_map (l : List Slot) (h : Heap)
    (hnd : (Heap.keys h).Nodup)
    (hok : ∀ o, some o ∈ l →
      ∃ k, Heap.lookup h o = some k ∧ l.count (some o) < k) :
    releaseAll h l = h.map (fun p => (p.1, p.2 - l.count (some p.1))) := by
  induction l with
  | nil =>
      rw [releaseAll_nil]
      symm
      have hz : ∀ p : ObjId × Nat,
          (p.1, p.2 - List.count (some p.1) ([] : List Slot)) = (p.1, p.2) := by
        intro p; simp
      simp only [hz]
      exact heap_map_pair_id h
  | cons x t ih =>
      have hokt : ∀ o, some o ∈ t →
          ∃ k, Heap.lookup h o = some k ∧ t.count (some o) < k := by
        intro o ho
        obtain ⟨k, hk1, hk2⟩ := hok o (List.mem_cons_of_mem x ho)
        refine ⟨k, hk1, ?_⟩
        have : t.count (some o) ≤ (x :: t).count (some o) := by
          rw [List.count_cons]; omega
        omega
      cases x with
      | none =>
          rw [releaseAll_cons_none, ih hokt]
          apply List.map_congr_left
          intro p _
          rw [List.count_cons]
          simp
      | some o =>
          obtain ⟨k, hk1, hk2⟩ := hok o (List.mem_cons_self _ t)
          have hcnt : (some o :: t).count (some o) = t.count (some o) + 1 := by
            rw [List.count_cons]
            simp
          rw [hcnt] at hk2
          rw [releaseAll_cons_some, ih hokt]
          unfold Heap.releaseObject
          rw [List.filterMap_map]
          rw [filterMap_eq_map_of _ _
            (fun p => (p.1, p.2 - (some o :: t).count (some p.1)))]
          intro p hp
          simp only [Function.comp]
          by_cases hpo : p.1 = o
          · have hpk : p.2 = k := by
              have hl2 := Heap.lookup_eq_of_mem h p.1 p.2 hnd hp
              rw [hpo, hk1] at hl2
              exact (Option.some_inj.mp hl2).symm
            rw [if_pos hpo, if_neg (by rw [hpk, hpo]; omega)]
            rw [hpo, hcnt, Nat.sub_sub]
          · rw [if_neg hpo]
            have hbe : (some o == some p.1) = false := by
              rw [beq_eq_false_iff_ne]
              intro hc
              exact hpo (Option.some_inj.mp hc).symm
            congr 1
            rw [List.count_cons, hbe]
            rfl

theorem releaseAll_incAll_cancel (h : Heap) (l : List Slot)
    (hnd : (Heap.keys h).Nodup)
    (hok : ∀ o, some o ∈ l → ∃ k, Heap.lookup h o = some k ∧ 1 ≤ k) :
    releaseAll (incAll h l) l = h := by
  rw [incAll_eq_map]
  rw [releaseAll_eq_map]
  · rw [List.map_map]
    have hcc : ∀ p : ObjId × Nat,
        ((fun p : ObjId × Nat => (p.1, p.2 - l.count (some p.1))) ∘
          (fun p : ObjId × Nat => (p.1, p.2 + l.count (some p.1)))) p
          = (p.1, p.2) := by
      intro p
      show (p.1, p.2 + l.count (some p.1) - l.count (some p.1)) = (p.1, p.2)
      rw [Nat.add_sub_cancel]
    rw [List.map_congr_left (fun p _ => hcc p)]
    exact heap_map_pair_id h
  · exact (keys_mapValue h (fun o k => k + l.count (some o))).symm ▸ hnd
  · intro o ho
    obtain ⟨k, hk1, hk2⟩ := hok o ho
    refine ⟨k + l.count (some o), ?_, by omega⟩
    rw [lookup_mapValue h (fun o k => k + l.count (some o)) o, hk1]
    rfl

/-- C10: self-assignment is safe and an identity.  `operator=` copy-constructs
a temporary from the source (fresh buffer, every non-null handle incremented
once) and then swaps, so after `a = a` the array has the same length and the
pointer-identical handle at every occupied index, and the heap — every live
object's reference count — is exactly what it was before: the temporary's
destructor releases precisely the increments the copy added. -/
theorem assign_self_identity (h : Heap) (a : ReferenceCountedArray)
    (hnd : (Heap.keys h).Nodup) (hlen : a.numUsed ≤ a.elements.length)
    (hlive : ∀ x ∈ a.used, slotLive h x = true) :
    (assign h a a).1 = h ∧
    (assign h a a).2.used = a.used ∧
    (assign h a a).2.numUsed = a.numUsed := by
  have hset : setAllocatedSize a.elements a.numUsed = a.used := by
    unfold setAllocatedSize used
    rw [show a.numUsed - a.elements.length = 0 from by omega]
    simp
  have hulen : a.used.length = a.numUsed := by
    unfold used
    rw [List.length_take]
    omega
  refine ⟨?_, ?_, rfl⟩
  · show releaseAll (copyConstruct h a).1 (a.elements.take a.numUsed) = h
    unfold copyConstruct
    rw [hset]
    show releaseAll (incAll h a.used) a.used = h
    apply releaseAll_incAll_cancel h a.used hnd
    intro o ho
    have hx := hlive (some o) ho
    rw [slotLive_some] at hx
    cases hlk : Heap.lookup h o with
    | none => rw [hlk] at hx; simp at hx
    | some k =>
        rw [hlk] at hx
        simp only [decide_eq_true_eq] at hx
        exact ⟨k, rfl, hx⟩
  · show (setAllocatedSize a.elements a.numUsed).take a.numUsed = a.used
    rw [hset]
    exact List.take_of_length_le (by omega)

/-- Witness for C10 at a concrete input: self-assigning an array holding two
live objects (counts `1` and `2`) changes neither the heap nor the occupied
prefix. -/
theorem assign_self_identity_witness :
    (Heap.keys [(7, 1), (8, 2)]).Nodup ∧
    ((⟨[some 7, some 8, none], 2⟩ : ReferenceCountedArray).numUsed ≤
      (⟨[some 7, some 8, none], 2⟩ : ReferenceCountedArray).elements.length) ∧
    (∀ x ∈ (⟨[some 7, some 8, none], 2⟩ : ReferenceCountedArray).used,
      slotLive [(7, 1), (8, 2)] x = true) ∧
    ((ReferenceCountedArray.assign [(7, 1), (8, 2)]
        ⟨[some 7, some 8, none], 2⟩ ⟨[some 7, some 8, none], 2⟩).1 =
      [(7, 1), (8, 2)] ∧
      (ReferenceCountedArray.assign [(7, 1), (8, 2)]
        ⟨[some 7, some 8, none], 2⟩ ⟨[some 7, some 8, none], 2⟩).2.used =
        (⟨[some 7, some 8, none], 2⟩ : ReferenceCountedArray).used ∧
      (ReferenceCountedArray.assign [(7, 1), (8, 2)]
        ⟨[some 7, some 8, none], 2⟩ ⟨[some 7, some 8, none], 2⟩).2.numUsed =
        (⟨[some 7, some 8, none], 2⟩ : ReferenceCountedArray).numUsed) :=
  ⟨by decide, by decide, by decide,
    assign_self_identity [(7, 1), (8, 2)] ⟨[some 7, some 8, none], 2⟩
      (by decide) (by decide) (by decide)⟩

/-! ### Per-operation characterisation of the occupied prefix -/

theorem length_le_ensure (els : List Slot) (m : Nat) :
    els.length ≤ (ensureAllocatedSize els m).length := by
  unfold ensureAllocatedSize
  split
  · rw [List.length_append, List.length_replicate]
    omega
  · omega

theorem min_le_ensure (els : List Slot) (m : Nat) :
    m ≤ (ensureAllocatedSize els m).length := by
  unfold ensureAllocatedSize
  split
  · rw [List.length_append, List.length_replicate]
    omega
  · omega

theorem take_ensure (els : List Slot) (m k : Nat) (hk : k ≤ els.length) :
    (ensureAllocatedSize els m).take k = els.take k := by
  unfold ensureAllocatedSize
  split
  · exact List.take_append_of_le_length hk
  · rfl

theorem take_drop_ensure (els : List Slot) (m k j : Nat)
    (hkj : k + j ≤ els.length) :
    ((ensureAllocatedSize els m).drop k).take j = (els.drop k).take j := by
  unfold ensureAllocatedSize
  split
  · rw [List.drop_append_of_le_length (by omega),
      List.take_append_of_le_length (by rw [List.length_drop]; omega)]
  · rfl

theorem set_eq_take_append (l : List Slot) (i : Nat) (x : Slot)
    (hi : i < l.length) :
    l.set i x = l.take i ++ [x] ++ l.drop (i + 1) := by
  induction l generalizing i with
  | nil => simp at hi
  | cons a t ih =>
      cases i with
      | zero => simp
      | succ j =>
          rw [List.set_cons_succ, List.take_succ_cons, List.drop_succ_cons,
            ih j (by simpa using hi)]
          simp

theorem add_numUsed (h : Heap) (a : ReferenceCountedArray) (x : Slot) :
    (add h a x).2.numUsed = a.numUsed + 1 := rfl

theorem add_len_inv (h : Heap) (a : ReferenceCountedArray) (x : Slot) :
    (add h a x).2.numUsed ≤ (add h a x).2.elements.length := by
  show a.numUsed + 1 ≤ ((ensureAllocatedSize a.elements (a.numUsed + 1)).set
    a.numUsed x).length
  rw [List.length_set]
  exact min_le_ensure _ _

theorem add_used (h : Heap) (a : ReferenceCountedArray) (x : Slot)
    (hl : a.numUsed ≤ a.elements.length) :
    (add h a x).2.used = a.used ++ [x] := by
  show ((ensureAllocatedSize a.elements (a.numUsed + 1)).set a.numUsed
    x).take (a.numUsed + 1) = a.elements.take a.numUsed ++ [x]
  have hlen : a.numUsed < (ensureAllocatedSize a.elements
      (a.numUsed + 1)).length := by
    have := min_le_ensure a.elements (a.numUsed + 1)
    omega
  rw [set_eq_take_append _ _ _ hlen]
  rw [List.take_append_of_le_length (by
    rw [List.length_append, List.length_take]
    simp only [List.length_cons, List.length_nil]
    omega)]
  rw [List.take_of_length_le (by
    rw [List.length_append, List.length_take]
    simp only [List.length_cons, List.length_nil]
    omega)]
  rw [take_ensure _ _ _ hl]

theorem insert_numUsed (h : Heap) (a : ReferenceCountedArray) (idx : Int)
    (x : Slot) : (insert h a idx x).2.numUsed = a.numUsed + 1 := by
  unfold insert
  split
  · exact add_numUsed h a x
  · rfl

theorem insert_len_inv (h : Heap) (a : ReferenceCountedArray) (idx : Int)
    (x : Slot) :
    (insert h a idx x).2.numUsed ≤ (insert h a idx x).2.elements.length := by
  unfold insert
  split
  · exact add_len_inv h a x
  · simp only [List.length_append, List.length_take, List.length_drop,
      List.length_cons, List.length_nil]
    have h1 := min_le_ensure a.elements (a.numUsed + 1)
    have h2 := length_le_ensure a.elements (a.numUsed + 1)
    omega

theorem insert_used (h : Heap) (a : ReferenceCountedArray) (idx : Int)
    (x : Slot) (hl : a.numUsed ≤ a.elements.length) (h0 : 0 ≤ idx)
    (hle : idx ≤ (a.numUsed : Int)) :
    (insert h a idx x).2.used =
      a.used.take idx.toNat ++ [x] ++ a.used.drop idx.toNat := by
  have hnotneg : ¬ idx < 0 := by omega
  have hnotgt : ¬ (a.numUsed : Int) < idx := by omega
  have hin : idx.toNat ≤ a.numUsed := by omega
  unfold insert
  rw [if_neg hnotneg, if_neg hnotgt]
  show ((ensureAllocatedSize a.elements (a.numUsed + 1)).take idx.toNat ++ [x]
      ++ ((ensureAllocatedSize a.elements (a.numUsed + 1)).drop
        idx.toNat).take (a.numUsed - idx.toNat)
      ++ (ensureAllocatedSize a.elements (a.numUsed + 1)).drop
        (a.numUsed + 1)).take (a.numUsed + 1)
    = a.used.take idx.toNat ++ [x] ++ a.used.drop idx.toNat
  set i := idx.toNat with hidef
  set E := ensureAllocatedSize a.elements (a.numUsed + 1) with hE
  have hElen : a.numUsed + 1 ≤ E.length := min_le_ensure _ _
  have hseg1 : (E.take i).length = i := by
    rw [List.length_take]; omega
  have hseg2 : ((E.drop i).take (a.numUsed - i)).length = a.numUsed - i := by
    rw [List.length_take, List.length_drop]; omega
  rw [List.take_append_of_le_length (by
    simp only [List.length_append, hseg1, hseg2, List.length_cons,
      List.length_nil]
    omega)]
  rw [List.take_of_length_le (by
    simp only [List.length_append, hseg1, hseg2, List.length_cons,
      List.length_nil]
    omega)]
  rw [hE, take_ensure _ _ _ (by omega), take_drop_ensure _ _ _ _ (by omega)]
  unfold used
  rw [List.take_take, show min i a.numUsed = i from by omega, List.drop_take]

/-! ### C2: sorted insertion and the bisection search -/

/-- Occupied prefix ascending under the key that witnesses the comparator's
total order. -/
def SortedKey (key : Slot → Int) (l : List Slot) : Prop :=
  l.Pairwise (fun a b => key a ≤ key b)

theorem sorted_insert_at_countP (key : Slot → Int) (x : Slot)
    (u : List Slot) (hs : SortedKey key u) :
    SortedKey key
      (u.take (u.countP (fun e => decide (key e ≤ key x))) ++ [x] ++
        u.drop (u.countP (fun e => decide (key e ≤ key x)))) := by
  induction u with
  | nil =>
      unfold SortedKey
      simp
  | cons a t ih =>
      unfold SortedKey at hs
      rw [List.pairwise_cons] at hs
      by_cases hpa : key a ≤ key x
      · have hcnt : (a :: t).countP (fun e => decide (key e ≤ key x)) =
            t.countP (fun e => decide (key e ≤ key x)) + 1 := by
          rw [List.countP_cons]
          simp [hpa]
        rw [hcnt, List.take_succ_cons, List.drop_succ_cons]
        unfold SortedKey
        rw [List.cons_append, List.cons_append, List.pairwise_cons]
        constructor
        · intro y hy
          rcases List.mem_append.mp hy with hy1 | hy2
          · rcases List.mem_append.mp hy1 with hy3 | hy4
            · exact hs.1 y ((List.take_sublist _ _).mem hy3)
            · rw [List.mem_singleton.mp hy4]
              exact hpa
          · exact hs.1 y ((List.drop_sublist _ _).mem hy2)
        · exact ih hs.2
      · have hxa : key x < key a := by omega
        have hcnt : (a :: t).countP (fun e => decide (key e ≤ key x)) = 0 := by
          rw [List.countP_eq_zero]
          intro e he
          rcases List.mem_cons.mp he with rfl | het
          · simp [hpa]
          · have : key a ≤ key e := hs.1 e het
            simp only [decide_eq_true_eq]
            omega
        rw [hcnt, List.take_zero, List.drop_zero, List.nil_append,
          List.singleton_append]
        unfold SortedKey
        rw [List.pairwise_cons]
        constructor
        · intro y hy
          rcases List.mem_cons.mp hy with rfl | hyt
          · omega
          · have : key a ≤ key y := hs.1 y hyt
            omega
        · rw [List.pairwise_cons]
          exact ⟨hs.1, hs.2⟩

theorem addSorted_sorted_inv (compareElements : Comparator)
    (key : Slot → Int)
    (hcge : ∀ a b, 0 ≤ compareElements a b ↔ key b ≤ key a)
    (h : Heap) (a : ReferenceCountedArray)
    (hs : SortedKey key a.used) (hl : a.numUsed ≤ a.elements.length) :
    SortedKey key (addSorted h a compareElements x).2.2.used ∧
      (addSorted h a compareElements x).2.2.numUsed ≤
        (addSorted h a compareElements x).2.2.elements.length := by
  have hul : a.used.length = a.numUsed := by
    unfold used
    rw [List.length_take]
    omega
  have hidx : findInsertIndexInSortedArray compareElements a.elements x 0
      a.numUsed = a.used.countP (fun e => decide (0 ≤ compareElements x e)) := by
    unfold findInsertIndexInSortedArray used
    rw [List.drop_zero, Nat.sub_zero, Nat.zero_add]
  have hpe : (fun e => decide (0 ≤ compareElements x e)) =
      (fun e => decide (key e ≤ key x)) := by
    funext e
    simp only [decide_eq_decide]
    exact hcge x e
  have hcnt_le : a.used.countP (fun e => decide (0 ≤ compareElements x e)) ≤
      a.numUsed := by
    calc a.used.countP _ ≤ a.used.length := List.countP_le_length _
    _ = a.numUsed := hul
  constructor
  · show SortedKey key (insert h a (_ : Int) x).2.used
    rw [insert_used h a _ x hl (by omega) (by
      rw [hidx]
      exact_mod_cast hcnt_le)]
    rw [hidx, Int.toNat_natCast, hpe]
    exact sorted_insert_at_countP key x a.used hs
  · exact insert_len_inv h a _ x

theorem indexOfSortedAux_result (compareElements : Comparator) (x : Slot)
    (els : List Slot) :
    ∀ (m s e : Nat), e - s ≤ m →
      indexOfSortedAux compareElements x els s e = -1 ∨
      ∃ i : Nat, s ≤ i ∧ i < e ∧
        indexOfSortedAux compareElements x els s e = (i : Int) ∧
        compareElements x (els.getD i none) = 0 := by
  intro m
  induction m with
  | zero =>
      intro s e hm
      rw [indexOfSortedAux.eq_def]
      rw [if_neg (by omega)]
      exact Or.inl rfl
  | succ m ih =>
      intro s e hm
      rw [indexOfSortedAux.eq_def]
      by_cases h1 : s < e
      · rw [if_pos h1]
        by_cases h2 : compareElements x (els.getD s none) = 0
        · rw [if_pos h2]
          exact Or.inr ⟨s, le_refl s, h1, rfl, h2⟩
        · rw [if_neg h2]
          by_cases h3 : (s + e) / 2 = s
          · simp only [h3, if_true, ite_true]
            exact Or.inl trivial
          · simp only [h3, if_false, ite_false]
            by_cases h4 : 0 ≤ compareElements x (els.getD ((s + e) / 2) none)
            · rw [if_pos h4]
              rcases ih ((s + e) / 2) e (by omega) with hres | ⟨i, hi1, hi2, hi3, hi4⟩
              · exact Or.inl hres
              · exact Or.inr ⟨i, by omega, hi2, hi3, hi4⟩
            · rw [if_neg h4]
              rcases ih s ((s + e) / 2) (by omega) with hres | ⟨i, hi1, hi2, hi3, hi4⟩
              · exact Or.inl hres
              · exact Or.inr ⟨i, hi1, by omega, hi3, hi4⟩
      · rw [if_neg h1]
        exact Or.inl rfl

theorem indexOfSortedAux_found (compareElements : Comparator) (x : Slot)
    (els : List Slot) (key : Slot → Int) (n : Nat)
    (hc0 : ∀ a b, compareElements a b = 0 ↔ key a = key b)
    (hcge : ∀ a b, 0 ≤ compareElements a b ↔ key b ≤ key a)
    (hpair : ∀ i j, i ≤ j → j < n →
      key (els.getD i none) ≤ key (els.getD j none)) :
    ∀ (m s e : Nat), e - s ≤ m → e ≤ n →
      (∃ i, s ≤ i ∧ i < e ∧ key (els.getD i none) = key x) →
      indexOfSortedAux compareElements x els s e ≠ -1 := by
  intro m
  induction m with
  | zero =>
      intro s e hm hen hocc
      obtain ⟨i, h1, h2, _⟩ := hocc
      omega
  | succ m ih =>
      intro s e hm hen hocc
      obtain ⟨i, hsi, hie, hkey⟩ := hocc
      have h1 : s < e := by omega
      rw [indexOfSortedAux.eq_def, if_pos h1]
      by_cases h2 : compareElements x (els.getD s none) = 0
      · rw [if_pos h2]
        intro hc
        omega
      · rw [if_neg h2]
        have hkxs : key (els.getD s none) ≠ key x := by
          intro hk
          exact h2 ((hc0 x (els.getD s none)).mpr hk.symm)
        have his : s < i := by
          rcases Nat.lt_or_ge s i with hlt | hge
          · exact hlt
          · have : i = s := by omega
            exact absurd (this ▸ hkey) hkxs
        have h3 : (s + e) / 2 ≠ s := by omega
        rw [if_neg h3]
        have hhb : s < (s + e) / 2 ∧ (s + e) / 2 < e := by omega
        by_cases h4 : 0 ≤ compareElements x (els.getD ((s + e) / 2) none)
        · rw [if_pos h4]
          apply ih ((s + e) / 2) e (by omega) hen
          by_cases hih : (s + e) / 2 ≤ i
          · exact ⟨i, hih, hie, hkey⟩
          · have h5 : key (els.getD ((s + e) / 2) none) ≤ key x :=
              (hcge x (els.getD ((s + e) / 2) none)).mp h4
            have h6 : key (els.getD i none) ≤
                key (els.getD ((s + e) / 2) none) :=
              hpair i ((s + e) / 2) (by omega) (by omega)
            exact ⟨(s + e) / 2, le_refl _, by omega, by omega⟩
        · rw [if_neg h4]
          apply ih s ((s + e) / 2) (by omega) (by omega)
          by_cases hih : i < (s + e) / 2
          · exact ⟨i, hsi, hih, hkey⟩
          · exfalso
            have h6 : key (els.getD ((s + e) / 2) none) ≤
                key (els.getD i none) :=
              hpair ((s + e) / 2) i (by omega) (by omega)
            exact h4 ((hcge x (els.getD ((s + e) / 2) none)).mpr (by omega))

theorem buildSorted_inv (compareElements : Comparator) (key : Slot → Int)
    (hcge : ∀ a b, 0 ≤ compareElements a b ↔ key b ≤ key a) :
    ∀ (xs : List Slot) (h : Heap) (a : ReferenceCountedArray),
      SortedKey key a.used → a.numUsed ≤ a.elements.length →
      SortedKey key
        ((xs.foldl (fun acc x => (addSorted acc.1 acc.2 compareElements x).2)
          (h, a)).2).used ∧
      ((xs.foldl (fun acc x => (addSorted acc.1 acc.2 compareElements x).2)
        (h, a)).2).numUsed ≤
        ((xs.foldl (fun acc x => (addSorted acc.1 acc.2 compareElements x).2)
          (h, a)).2).elements.length := by
  intro xs
  induction xs with
  | nil => intro h a hs hl; exact ⟨hs, hl⟩
  | cons x t ih =>
      intro h a hs hl
      rw [List.foldl_cons]
      have hstep := addSorted_sorted_inv compareElements key hcge h a hs hl
        (x := x)
      exact ih (addSorted h a compareElements x).2.1
        (addSorted h a compareElements x).2.2 hstep.1 hstep.2

/-- C2: on an array built by a sequence of `addSorted` calls with one fixed
comparator defining a consistent total order (formalised by an order key
`key` agreeing with the comparator's zero and sign), `indexOfSorted` returns
an index whose element compares equal to the target whenever some occupied
slot compares equal to it, and returns `-1` when no occupied slot compares
equal. -/
theorem indexOfSorted_buildSorted (compareElements : Comparator)
    (key : Slot → Int)
    (hc0 : ∀ a b, compareElements a b = 0 ↔ key a = key b)
    (hcge : ∀ a b, 0 ≤ compareElements a b ↔ key b ≤ key a)
    (h0 : Heap) (xs : List Slot) (x : Slot) :
    ((∃ e ∈ (buildSorted h0 compareElements xs).2.used,
        compareElements e x = 0) →
      ∃ i : Nat,
        indexOfSorted (buildSorted h0 compareElements xs).2 compareElements x
          = (i : Int) ∧
        i < (buildSorted h0 compareElements xs).2.numUsed ∧
        compareElements
          ((buildSorted h0 compareElements xs).2.used.getD i none) x = 0) ∧
    ((∀ e ∈ (buildSorted h0 compareElements xs).2.used,
        compareElements e x ≠ 0) →
      indexOfSorted (buildSorted h0 compareElements xs).2 compareElements x
        = -1) := by
  set a := (buildSorted h0 compareElements xs).2 with ha
  have hinv := buildSorted_inv compareElements key hcge xs h0 ⟨[], 0⟩
    (by unfold SortedKey used; simp) (by simp)
  have hs : SortedKey key a.used := hinv.1
  have hl : a.numUsed ≤ a.elements.length := hinv.2
  have hul : a.used.length = a.numUsed := by
    unfold used
    rw [List.length_take]
    omega
  have hgdu : ∀ i, i < a.numUsed →
      a.used.getD i none = a.elements.getD i none := by
    intro i hi
    exact getD_take_of_lt _ _ _ hi
  have hpair : ∀ i j, i ≤ j → j < a.numUsed →
      key (a.elements.getD i none) ≤ key (a.elements.getD j none) := by
    intro i j hij hj
    rcases Nat.lt_or_ge i j with hlt | hge
    · have hp := (List.pairwise_iff_getElem.mp hs) i j
        (by omega) (by omega) hlt
      rw [← List.getD_eq_getElem a.used none (by omega),
        ← List.getD_eq_getElem a.used none (by omega)] at hp
      rw [← hgdu i (by omega), ← hgdu j hj]
      exact hp
    · have : i = j := by omega
      rw [this]
  constructor
  · intro hocc
    obtain ⟨e, hmem, hcmp⟩ := hocc
    obtain ⟨iw, hiw, hiwe⟩ := List.mem_iff_getElem.mp hmem
    have hiwn : iw < a.numUsed := by omega
    have hkey : key (a.elements.getD iw none) = key x := by
      rw [← hgdu iw hiwn, List.getD_eq_getElem a.used none (by omega), hiwe]
      exact (hc0 e x).mp hcmp
    have hne := indexOfSortedAux_found compareElements x a.elements key
      a.numUsed hc0 hcge hpair a.numUsed 0 a.numUsed (by omega) (le_refl _)
      ⟨iw, by omega, hiwn, hkey⟩
    rcases indexOfSortedAux_result compareElements x a.elements a.numUsed 0
        a.numUsed (by omega) with hres | ⟨i, _, hie, hieq, hicmp⟩
    · exact absurd hres hne
    · refine ⟨i, hieq, hie, ?_⟩
      rw [hgdu i hie]
      rw [hc0]
      exact ((hc0 x (a.elements.getD i none)).mp hicmp).symm
  · intro hnone
    rcases indexOfSortedAux_result compareElements x a.elements a.numUsed 0
        a.numUsed (by omega) with hres | ⟨i, _, hie, _, hicmp⟩
    · exact hres
    · exfalso
      have hmem : a.used.getD i none ∈ a.used := by
        rw [List.getD_eq_getElem a.used none (by omega)]
        exact List.getElem_mem _
      have := hnone (a.used.getD i none) hmem
      apply this
      rw [hgdu i hie, hc0]
      exact ((hc0 x (a.elements.getD i none)).mp hicmp).symm

/-- Order key of the concrete comparator used in the C2 witness: null sorts
first, objects by identity. -/
def exampleKey : Slot → Int :=
  fun x => match x with
  | some n => (n : Int)
  | none => -1

/-- Concrete comparator for the C2 witness, the difference of the keys. -/
def exampleCmp : Comparator := fun a b => exampleKey a - exampleKey b

/-- Witness for C2 at a concrete input: the array built by `addSorted` of
`3, 1, 2` holds `[1, 2, 3]`, and `indexOfSorted` locates the element equal
to `2`. -/
theorem indexOfSorted_buildSorted_witness :
    (∃ e ∈ (buildSorted [] exampleCmp
        [some 3, some 1, some 2]).2.used, exampleCmp e (some 2) = 0) ∧
    ∃ i : Nat,
      indexOfSorted (buildSorted [] exampleCmp
          [some 3, some 1, some 2]).2 exampleCmp (some 2) = (i : Int) ∧
      i < (buildSorted [] exampleCmp [some 3, some 1, some 2]).2.numUsed ∧
      exampleCmp ((buildSorted [] exampleCmp
          [some 3, some 1, some 2]).2.used.getD i none) (some 2) = 0 :=
  ⟨by decide,
    (indexOfSorted_buildSorted exampleCmp exampleKey
      (fun a b => by unfold exampleCmp; omega)
      (fun a b => by unfold exampleCmp; omega)
      [] [some 3, some 1, some 2] (some 2)).1 (by decide)⟩

/-! ### Remaining per-operation lemmas, used by the global invariant -/

theorem set_in_used (h : Heap) (a : ReferenceCountedArray) (idx : Int)
    (x : Slot) (h0 : 0 ≤ idx) (hlt : idx < (a.numUsed : Int)) :
    (set h a idx x).2.used = a.used.set idx.toNat x ∧
    (set h a idx x).2.numUsed = a.numUsed ∧
    (set h a idx x).2.elements.length = a.elements.length := by
  unfold set
  rw [if_pos h0, if_pos hlt]
  refine ⟨?_, rfl, List.length_set a.elements idx.toNat x⟩
  show (a.elements.set idx.toNat x).take a.numUsed = _
  rw [List.set_take]
  rfl

theorem set_oob_eq_add (h : Heap) (a : ReferenceCountedArray) (idx : Int)
    (x : Slot) (h0 : 0 ≤ idx) (hge : (a.numUsed : Int) ≤ idx) :
    set h a idx x = add h a x := by
  unfold set add
  rw [if_pos h0, if_neg (by omega)]

theorem remove_in_characterisation (h : Heap) (a : ReferenceCountedArray)
    (idx : Int) (hl : a.numUsed ≤ a.elements.length)
    (hpos : isPositiveAndBelow idx a.numUsed = true) :
    (remove h a idx).2.used =
      a.used.take idx.toNat ++ a.used.drop (idx.toNat + 1) ∧
    (remove h a idx).2.numUsed = a.numUsed - 1 ∧
    (remove h a idx).2.numUsed ≤ (remove h a idx).2.elements.length := by
  have hb : 0 ≤ idx ∧ idx < (a.numUsed : Int) := by
    simpa [isPositiveAndBelow] using hpos
  have hin : idx.toNat < a.numUsed := by omega
  set i := idx.toNat with hidef
  set n := a.numUsed - 1 with hn
  set E1 := a.elements.take i ++ (a.elements.drop (i + 1)).take (n - i)
      ++ a.elements.drop n with hE1
  have hnu : (remove h a idx).2.numUsed = n := by
    unfold remove
    rw [if_pos hpos]
  have hu2 : (remove h a idx).2.used = E1.take n := by
    unfold remove used
    rw [if_pos hpos]
    show (if 2 * n < a.elements.length then shrinkToNoMoreThan E1 n
      else E1 : List Slot).take n = E1.take n
    unfold shrinkToNoMoreThan
    split
    · split
      · rw [List.take_take, Nat.min_self]
      · rfl
    · rfl
  have hE1len : E1.length = a.elements.length := by
    rw [hE1]
    simp only [List.length_append, List.length_take, List.length_drop]
    omega
  have hlen3 : n ≤ (remove h a idx).2.elements.length := by
    unfold remove
    rw [if_pos hpos]
    show n ≤ (if 2 * n < a.elements.length then shrinkToNoMoreThan E1 n
      else E1 : List Slot).length
    unfold shrinkToNoMoreThan
    split
    · split
      · rw [List.length_take]
        omega
      · omega
    · omega
  refine ⟨?_, hnu, ?_⟩
  case refine_2 =>
    rw [hnu]
    exact hlen3
  · rw [hu2, hE1]
    rw [List.take_append_of_le_length (by
      simp only [List.length_append, List.length_take, List.length_drop]
      omega)]
    rw [List.take_of_length_le (by
      simp only [List.length_append, List.length_take, List.length_drop]
      omega)]
    unfold used
    rw [List.take_take, show min i a.numUsed = i from by omega,
      List.drop_take, show n - i = a.numUsed - (i + 1) from by omega]

/-! ### C1: the reference-count/length invariant -/

/-- Indicator used by the slot-count arithmetic. -/
def ind (x y : Slot) : Nat := if x = y then 1 else 0

theorem count_beq_ind (x y : Slot) :
    (if (x == y) = true then 1 else 0) = ind x y := by
  unfold ind
  by_cases hxy : x = y <;> simp [hxy]

theorem cnt_append_single (u : List Slot) (x y : Slot) :
    (u ++ [x]).count y = u.count y + ind x y := by
  rw [List.count_append, List.count_singleton, count_beq_ind]

theorem cnt_splice (u : List Slot) (i : Nat) (x y : Slot) :
    (u.take i ++ [x] ++ u.drop i).count y = u.count y + ind x y := by
  rw [List.count_append, List.count_append, List.count_singleton,
    count_beq_ind]
  conv_rhs => rw [← List.take_append_drop i u, List.count_append]
  omega

theorem cnt_erase (u : List Slot) (i : Nat) (y : Slot) (hi : i < u.length) :
    (u.take i ++ u.drop (i + 1)).count y + ind (u.getD i none) y =
      u.count y := by
  conv_rhs => rw [← take_cons_getD_drop u i hi]
  rw [List.count_append, List.count_append, List.count_append,
    List.count_singleton, count_beq_ind]
  omega

theorem cnt_set (u : List Slot) (i : Nat) (x y : Slot) (hi : i < u.length) :
    (u.set i x).count y + ind (u.getD i none) y = u.count y + ind x y := by
  rw [set_eq_take_append u i x hi]
  rw [List.count_append, List.count_append, List.count_singleton,
    count_beq_ind]
  conv_rhs => rw [← take_cons_getD_drop u i hi]
  rw [List.count_append, List.count_append, List.count_singleton,
    count_beq_ind]
  omega

end ReferenceCountedArray

/-- Check that a slot holds `nullptr` or a pointer to a live object. -/
def slotValid (h : Heap) (x : Slot) : Bool :=
  match x with
  | none => true
  | some o => decide (o ∈ Heap.keys h)

theorem slotValid_some (h : Heap) (o : ObjId) :
    slotValid h (some o) = decide (o ∈ Heap.keys h) := rfl

/-- Several reference-counted arrays sharing one population of objects. -/
structure World where
  heap : Heap
  arrays : List ReferenceCountedArray
deriving DecidableEq

/-- Mutating operations of claim C1: `add`, `insert`, `remove` and `set`,
addressed to one of the arrays. -/
inductive AOp where
  | add (ai : Nat) (x : Slot)
  | insert (ai : Nat) (i : Int) (x : Slot)
  | remove (ai : Nat) (i : Int)
  | set (ai : Nat) (i : Int) (x : Slot)
deriving DecidableEq

/-- Default array used by out-of-range accesses of the op interpreter. -/
def emptyArray : ReferenceCountedArray := ⟨[], 0⟩

namespace World

/-- Apply one operation to the addressed array, threading the heap. -/
def step (w : World) (op : AOp) : World :=
  match op with
  | .add ai x =>
      let a := w.arrays.getD ai emptyArray
      let r := ReferenceCountedArray.add w.heap a x
      ⟨r.1, w.arrays.set ai r.2⟩
  | .insert ai i x =>
      let a := w.arrays.getD ai emptyArray
      let r := ReferenceCountedArray.insert w.heap a i x
      ⟨r.1, w.arrays.set ai r.2⟩
  | .remove ai i =>
      let a := w.arrays.getD ai emptyArray
      let r := ReferenceCountedArray.remove w.heap a i
      ⟨r.1, w.arrays.set ai r.2⟩
  | .set ai i x =>
      let a := w.arrays.getD ai emptyArray
      let r := ReferenceCountedArray.set w.heap a i x
      ⟨r.1, w.arrays.set ai r.2⟩

/-- Run a sequence of operations. -/
def run (w : World) (ops : List AOp) : World := ops.foldl step w

/-- World of `k` empty arrays over an initial population `h0` (objects that
have been constructed but not yet stored anywhere). -/
def init (k : Nat) (h0 : Heap) : World := ⟨h0, List.replicate k emptyArray⟩

/-- Total number of slots, across all arrays, currently holding `o`. -/
def slotCount (w : World) (o : ObjId) : Nat :=
  (w.arrays.map (fun a => a.used.count (some o))).sum

/-- The invariant of claim C1: no duplicate object entries; each array's
`numUsed` is within its capacity and counts exactly its occupied slots; every
live object's reference count equals the number of slots (across all arrays)
currently holding it; and every occupied slot is null or holds a live
object. -/
def Inv (w : World) : Prop :=
  (Heap.keys w.heap).Nodup ∧
  (∀ a ∈ w.arrays, a.numUsed ≤ a.elements.length ∧
    a.used.length = a.numUsed) ∧
  (∀ o ∈ Heap.keys w.heap, Heap.lookup w.heap o = some (w.slotCount o)) ∧
  (∀ a ∈ w.arrays, ∀ x ∈ a.used, slotValid w.heap x = true)

instance (w : World) : Decidable (Inv w) := by
  unfold Inv
  infer_instance

end World

/-- Validity of one operation: the addressed array exists and the stored
handle is null or a live object (no dangling pointer is handed to the
container). -/
def AOp.valid (w : World) : AOp → Bool
  | .add ai x => decide (ai < w.arrays.length) && slotValid w.heap x
  | .insert ai _ x => decide (ai < w.arrays.length) && slotValid w.heap x
  | .remove ai _ => decide (ai < w.arrays.length)
  | .set ai _ x => decide (ai < w.arrays.length) && slotValid w.heap x

/-- Validity of a whole sequence, each op checked in the state it runs in. -/
def World.validSeq : World → List AOp → Bool
  | _, [] => true
  | w, op :: rest => AOp.valid w op && World.validSeq (w.step op) rest

theorem sum_map_set (l : List ReferenceCountedArray)
    (f : ReferenceCountedArray → Nat) (ai : Nat) (a' : ReferenceCountedArray)
    (hai : ai < l.length) :
    ((l.set ai a').map f).sum + f (l.getD ai emptyArray) =
      (l.map f).sum + f a' := by
  induction l generalizing ai with
  | nil => simp at hai
  | cons b t ih =>
      cases ai with
      | zero => simp [List.set]; omega
      | succ j =>
          rw [List.set_cons_succ]
          simp only [List.map_cons, List.sum_cons, List.getD_cons_succ]
          have := ih j (by simpa using hai)
          omega

theorem le_sum_of_mem (l : List Nat) (x : Nat) (hx : x ∈ l) : x ≤ l.sum := by
  induction l with
  | nil => simp at hx
  | cons b t ih =>
      rw [List.sum_cons]
      rcases List.mem_cons.mp hx with rfl | hxt
      · omega
      · have := ih hxt
        omega

theorem getD_mem_of_lt (l : List ReferenceCountedArray) (ai : Nat)
    (hai : ai < l.length) : l.getD ai emptyArray ∈ l := by
  rw [List.getD_eq_getElem _ _ hai]
  exact List.getElem_mem _

theorem used_length_of_le (a : ReferenceCountedArray)
    (h : a.numUsed ≤ a.elements.length) : a.used.length = a.numUsed := by
  unfold ReferenceCountedArray.used
  rw [List.length_take]
  omega

theorem slotValid_incReferenceCount (h : Heap) (o0 : ObjId) (y : Slot) :
    slotValid (Heap.incReferenceCount h o0) y = slotValid h y := by
  cases y with
  | none => rfl
  | some o1 =>
      rw [slotValid_some, slotValid_some, Heap.keys_incReferenceCount]

theorem mem_splice (u : List Slot) (i : Nat) (x y : Slot)
    (hy : y ∈ u.take i ++ [x] ++ u.drop i) : y ∈ u ∨ y = x := by
  rcases List.mem_append.mp hy with hy1 | hy2
  · rcases List.mem_append.mp hy1 with hy3 | hy4
    · exact Or.inl ((List.take_sublist _ _).mem hy3)
    · exact Or.inr (List.mem_singleton.mp hy4)
  · exact Or.inl ((List.drop_sublist _ _).mem hy2)

theorem mem_erase_part (u : List Slot) (i : Nat) (y : Slot)
    (hy : y ∈ u.take i ++ u.drop (i + 1)) : y ∈ u := by
  rcases List.mem_append.mp hy with hy1 | hy2
  · exact (List.take_sublist _ _).mem hy1
  · exact (List.drop_sublist _ _).mem hy2

theorem slotCount_after_set (w : World) (h2 : Heap) (ai : Nat)
    (a' : ReferenceCountedArray) (hai : ai < w.arrays.length) (o : ObjId) :
    World.slotCount ⟨h2, w.arrays.set ai a'⟩ o +
      (w.arrays.getD ai emptyArray).used.count (some o) =
      World.slotCount w o + a'.used.count (some o) := by
  unfold World.slotCount
  exact sum_map_set w.arrays _ ai a' hai

theorem inv_of_parts (w : World) (ai : Nat) (hai : ai < w.arrays.length)
    (h2 : Heap) (a' : ReferenceCountedArray)
    (k1 : (Heap.keys h2).Nodup)
    (k2 : a'.numUsed ≤ a'.elements.length)
    (k3 : ∀ o ∈ Heap.keys h2, Heap.lookup h2 o =
      some (World.slotCount ⟨h2, w.arrays.set ai a'⟩ o))
    (k4 : ∀ b ∈ w.arrays.set ai a', ∀ y ∈ b.used, slotValid h2 y = true)
    (harr : ∀ a ∈ w.arrays, a.numUsed ≤ a.elements.length ∧
      a.used.length = a.numUsed) :
    World.Inv ⟨h2, w.arrays.set ai a'⟩ := by
  refine ⟨k1, ?_, k3, k4⟩
  intro b hb
  rcases List.mem_or_eq_of_mem_set hb with hbo | hbeq
  · exact harr b hbo
  · rw [hbeq]
    exact ⟨k2, used_length_of_le a' k2⟩

theorem insert_used_gt (h : Heap) (a : ReferenceCountedArray) (idx : Int)
    (x : Slot) (hl : a.numUsed ≤ a.elements.length)
    (hgt : (a.numUsed : Int) < idx) :
    (ReferenceCountedArray.insert h a idx x).2.used = a.used ++ [x] := by
  unfold ReferenceCountedArray.insert
  rw [if_neg (by omega), if_pos hgt]
  show ((ensureAllocatedSize a.elements (a.numUsed + 1)).take a.numUsed ++ [x]
      ++ ((ensureAllocatedSize a.elements (a.numUsed + 1)).drop
        a.numUsed).take (a.numUsed - a.numUsed)
      ++ (ensureAllocatedSize a.elements (a.numUsed + 1)).drop
        (a.numUsed + 1)).take (a.numUsed + 1)
    = a.used ++ [x]
  rw [Nat.sub_self, List.take_zero, List.append_nil]
  have hElen := ReferenceCountedArray.min_le_ensure a.elements (a.numUsed + 1)
  rw [List.take_append_of_le_length (by
    simp only [List.length_append, List.length_take, List.length_cons,
      List.length_nil]
    omega)]
  rw [List.take_of_length_le (by
    simp only [List.length_append, List.length_take, List.length_cons,
      List.length_nil]
    omega)]
  rw [ReferenceCountedArray.take_ensure _ _ _ hl]
  rfl

/-- Heap and count effect of `add` (and of the equal-shape paths of `insert`
and out-of-bounds `set`): the new object's count grows by the one slot now
holding it. -/
theorem step_add_inv (w : World) (ai : Nat) (x : Slot)
    (hai : ai < w.arrays.length) (hx : slotValid w.heap x = true)
    (hI : World.Inv w) : World.Inv (w.step (AOp.add ai x)) := by
  obtain ⟨hnd, harr, hcnt, hslots⟩ := hI
  set a := w.arrays.getD ai emptyArray with hadef
  have hamem : a ∈ w.arrays := getD_mem_of_lt _ _ hai
  have hal := (harr a hamem).1
  have hused := ReferenceCountedArray.add_used w.heap a x hal
  have hlen := ReferenceCountedArray.add_len_inv w.heap a x
  set a' := (ReferenceCountedArray.add w.heap a x).2 with ha'
  set h2 := (ReferenceCountedArray.add w.heap a x).1 with hh2
  show World.Inv ⟨h2, w.arrays.set ai a'⟩
  have hsc : ∀ o : ObjId, World.slotCount ⟨h2, w.arrays.set ai a'⟩ o =
      World.slotCount w o + ReferenceCountedArray.ind x (some o) := by
    intro o
    have h1 := slotCount_after_set w h2 ai a' hai o
    rw [← hadef] at h1
    have h2c : a'.used.count (some o) = a.used.count (some o) +
        ReferenceCountedArray.ind x (some o) := by
      rw [hused]
      exact ReferenceCountedArray.cnt_append_single a.used x (some o)
    omega
  cases x with
  | none =>
      have hh : h2 = w.heap := rfl
      apply inv_of_parts w ai hai h2 a' (by rw [hh]; exact hnd) hlen
      · intro o ho
        rw [hsc o]
        show Heap.lookup h2 o = some (World.slotCount w o +
          ReferenceCountedArray.ind none (some o))
        have : ReferenceCountedArray.ind none (some o) = 0 := by
          unfold ReferenceCountedArray.ind
          simp
        rw [this, hh, Nat.add_zero]
        exact hcnt o (by rw [← hh]; exact ho)
      · intro b hb y hy
        rw [hh]
        rcases List.mem_or_eq_of_mem_set hb with hbo | hbeq
        · exact hslots b hbo y hy
        · rw [hbeq] at hy
          rw [hused] at hy
          rcases List.mem_append.mp hy with hy1 | hy2
          · exact hslots a hamem y hy1
          · rw [List.mem_singleton.mp hy2]
            rfl
      · exact harr
  | some o0 =>
      have hh : h2 = Heap.incReferenceCount w.heap o0 := rfl
      have ho0 : o0 ∈ Heap.keys w.heap := by
        rw [slotValid_some] at hx
        exact of_decide_eq_true hx
      apply inv_of_parts w ai hai h2 a' ?k1 hlen ?k3 ?k4 harr
      case k1 =>
        rw [hh, Heap.keys_incReferenceCount]
        exact hnd
      case k3 =>
        intro o ho
        rw [hh] at ho
        rw [Heap.keys_incReferenceCount] at ho
        rw [hsc o, hh, Heap.lookup_incReferenceCount]
        by_cases hoe : o = o0
        · rw [if_pos hoe, hcnt o ho]
          have : ReferenceCountedArray.ind (some o0) (some o) = 1 := by
            unfold ReferenceCountedArray.ind
            rw [if_pos (by rw [hoe])]
          rw [this]
          rfl
        · rw [if_neg hoe, hcnt o ho]
          have : ReferenceCountedArray.ind (some o0) (some o) = 0 := by
            unfold ReferenceCountedArray.ind
            rw [if_neg (by intro hc; exact hoe (Option.some_inj.mp hc).symm)]
          rw [this, Nat.add_zero]
      case k4 =>
        intro b hb y hy
        rw [hh, slotValid_incReferenceCount]
        rcases List.mem_or_eq_of_mem_set hb with hbo | hbeq
        · exact hslots b hbo y hy
        · rw [hbeq] at hy
          rw [hused] at hy
          rcases List.mem_append.mp hy with hy1 | hy2
          · exact hslots a hamem y hy1
          · rw [List.mem_singleton.mp hy2]
            exact hx

theorem ind_none (o : ObjId) : ReferenceCountedArray.ind none (some o) = 0 := by
  unfold ReferenceCountedArray.ind
  simp

theorem ind_some_self (o : ObjId) :
    ReferenceCountedArray.ind (some o) (some o) = 1 := by
  unfold ReferenceCountedArray.ind
  simp

theorem ind_some_ne (o0 o : ObjId) (h : o0 ≠ o) :
    ReferenceCountedArray.ind (some o0) (some o) = 0 := by
  unfold ReferenceCountedArray.ind
  rw [if_neg (by intro hc; exact h (Option.some_inj.mp hc))]

/-- Occupied slot forces a positive total slot count. -/
theorem slotCount_pos_of_mem (w : World) (b : ReferenceCountedArray)
    (hb : b ∈ w.arrays) (o : ObjId) (hy : some o ∈ b.used) :
    1 ≤ w.slotCount o := by
  have hc : 0 < b.used.count (some o) := List.count_pos_iff.mpr hy
  have hm : b.used.count (some o) ∈
      w.arrays.map (fun a => a.used.count (some o)) :=
    List.mem_map_of_mem _ hb
  have := le_sum_of_mem _ _ hm
  unfold World.slotCount
  omega

/-- Invariant parts after a `releaseObject` of `o0` on a base heap whose
lookups match a base count function exceeding the new slot counts by the one
removed occurrence of `o0`. -/
theorem inv_after_release (w' : World) (hbase : Heap) (o0 : ObjId)
    (cntb : ObjId → Nat)
    (hnd : (Heap.keys hbase).Nodup)
    (hlkb : ∀ o ∈ Heap.keys hbase, Heap.lookup hbase o = some (cntb o))
    (hw'heap : w'.heap = Heap.releaseObject hbase o0)
    (hcnt : ∀ o, w'.slotCount o +
      ReferenceCountedArray.ind (some o0) (some o) = cntb o)
    (hslots : ∀ b ∈ w'.arrays, ∀ y ∈ b.used, slotValid hbase y = true)
    (harr2 : ∀ b ∈ w'.arrays, b.numUsed ≤ b.elements.length ∧
      b.used.length = b.numUsed) :
    World.Inv w' := by
  have hlkr := fun oq => Heap.lookup_releaseObject hbase o0 oq hnd
  refine ⟨?_, harr2, ?_, ?_⟩
  · rw [hw'heap]
    exact Heap.nodup_keys_releaseObject hbase o0 hnd
  · intro o ho
    rw [hw'heap] at ho ⊢
    have hne : Heap.lookup (Heap.releaseObject hbase o0) o ≠ none :=
      (Heap.mem_keys_iff_lookup _ o).mp ho
    rw [hlkr o] at hne ⊢
    by_cases hoe : o = o0
    · rw [if_pos hoe] at hne ⊢
      have ho0b : o0 ∈ Heap.keys hbase := by
        by_contra hno
        rw [(Heap.lookup_eq_none_iff hbase o0).mpr hno] at hne
        simp at hne
      rw [hlkb o0 ho0b] at hne ⊢
      have hne1 : cntb o0 ≠ 1 := by
        intro h1
        rw [h1] at hne
        simp at hne
      show (if cntb o0 = 1 then none else some (cntb o0 - 1)) =
        some (w'.slotCount o)
      rw [if_neg hne1]
      have hc2 := hcnt o0
      rw [ind_some_self] at hc2
      rw [hoe]
      congr 1
      omega
    · rw [if_neg hoe] at hne ⊢
      have hob : o ∈ Heap.keys hbase :=
        (Heap.mem_keys_iff_lookup hbase o).mpr hne
      rw [hlkb o hob]
      have := hcnt o
      rw [ind_some_ne o0 o (fun hc => hoe hc.symm)] at this
      congr 1
      omega
  · intro b hb y hy
    have hv := hslots b hb y hy
    cases y with
    | none => rfl
    | some o1 =>
        rw [slotValid_some] at hv ⊢
        have ho1b : o1 ∈ Heap.keys hbase := of_decide_eq_true hv
        apply decide_eq_true
        rw [hw'heap, Heap.mem_keys_iff_lookup, hlkr o1]
        by_cases hoe : o1 = o0
        · have ho0b : o0 ∈ Heap.keys hbase := hoe ▸ ho1b
          rw [if_pos hoe, hlkb o0 ho0b]
          have hge : 1 ≤ w'.slotCount o1 :=
            slotCount_pos_of_mem w' b hb o1 hy
          have hc2 := hcnt o1
          rw [hoe] at hge hc2
          rw [ind_some_self] at hc2
          have hne1 : cntb o0 ≠ 1 := by omega
          show (if cntb o0 = 1 then none else some (cntb o0 - 1)) ≠ none
          rw [if_neg hne1]
          exact Option.noConfusion
        · rw [if_neg hoe, hlkb o1 ho1b]
          exact Option.noConfusion

/-- Heap effect of `if (newObject != nullptr) newObject->incReferenceCount()`. -/
def optInc (h : Heap) (x : Slot) : Heap :=
  match x with
  | some o => Heap.incReferenceCount h o
  | none => h

/-- Heap effect of `if (ObjectClass* o = slot) releaseObject (o)`. -/
def optRelease (h : Heap) (y : Slot) : Heap :=
  match y with
  | some o => Heap.releaseObject h o
  | none => h

/-- Invariant after installing, in array `ai`, a new array whose occupied
slots are the old ones plus one slot holding `x`, with the heap incremented
at `x` (the shape shared by `add`, the in-range paths of `insert`, and the
appending path of `set`). -/
theorem inv_after_addlike (w : World) (ai : Nat) (x : Slot)
    (hai : ai < w.arrays.length) (hx : slotValid w.heap x = true)
    (hI : World.Inv w) (a' : ReferenceCountedArray) (h2 : Heap)
    (hh2 : h2 = optInc w.heap x)
    (hlen : a'.numUsed ≤ a'.elements.length)
    (hcount : ∀ o : ObjId, a'.used.count (some o) =
      (w.arrays.getD ai emptyArray).used.count (some o) +
        ReferenceCountedArray.ind x (some o))
    (hmem : ∀ y ∈ a'.used,
      y ∈ (w.arrays.getD ai emptyArray).used ∨ y = x) :
    World.Inv ⟨h2, w.arrays.set ai a'⟩ := by
  obtain ⟨hnd, harr, hcnt, hslots⟩ := hI
  set a := w.arrays.getD ai emptyArray with hadef
  have hamem : a ∈ w.arrays := getD_mem_of_lt _ _ hai
  have hsc : ∀ o : ObjId, World.slotCount ⟨h2, w.arrays.set ai a'⟩ o =
      World.slotCount w o + ReferenceCountedArray.ind x (some o) := by
    intro o
    have h1 := slotCount_after_set w h2 ai a' hai o
    rw [← hadef] at h1
    have h2c := hcount o
    omega
  cases x with
  | none =>
      have hh : h2 = w.heap := hh2
      apply inv_of_parts w ai hai h2 a' (by rw [hh]; exact hnd) hlen
      · intro o ho
        rw [hsc o, ind_none, Nat.add_zero, hh]
        exact hcnt o (by rw [← hh]; exact ho)
      · intro b hb y hy
        rw [hh]
        rcases List.mem_or_eq_of_mem_set hb with hbo | hbeq
        · exact hslots b hbo y hy
        · rw [hbeq] at hy
          rcases hmem y hy with hy1 | hy2
          · exact hslots a hamem y hy1
          · rw [hy2]
            rfl
      · exact harr
  | some o0 =>
      have hh : h2 = Heap.incReferenceCount w.heap o0 := hh2
      have ho0 : o0 ∈ Heap.keys w.heap := by
        rw [slotValid_some] at hx
        exact of_decide_eq_true hx
      apply inv_of_parts w ai hai h2 a' ?k1 hlen ?k3 ?k4 harr
      case k1 =>
        rw [hh, Heap.keys_incReferenceCount]
        exact hnd
      case k3 =>
        intro o ho
        rw [hh] at ho
        rw [Heap.keys_incReferenceCount] at ho
        rw [hsc o, hh, Heap.lookup_incReferenceCount]
        by_cases hoe : o = o0
        · rw [if_pos hoe, hcnt o ho]
          rw [show ReferenceCountedArray.ind (some o0) (some o) = 1 from by
            rw [hoe]; exact ind_some_self o0]
          rfl
        · rw [if_neg hoe, hcnt o ho,
            ind_some_ne o0 o (fun hc => hoe hc.symm), Nat.add_zero]
      case k4 =>
        intro b hb y hy
        rw [hh, slotValid_incReferenceCount]
        rcases List.mem_or_eq_of_mem_set hb with hbo | hbeq
        · exact hslots b hbo y hy
        · rw [hbeq] at hy
          rcases hmem y hy with hy1 | hy2
          · exact hslots a hamem y hy1
          · rw [hy2]
            exact hx

theorem step_insert_inv (w : World) (ai : Nat) (idx : Int) (x : Slot)
    (hai : ai < w.arrays.length) (hx : slotValid w.heap x = true)
    (hI : World.Inv w) : World.Inv (w.step (AOp.insert ai idx x)) := by
  set a := w.arrays.getD ai emptyArray with hadef
  have hamem : a ∈ w.arrays := getD_mem_of_lt _ _ hai
  have hal := (hI.2.1 a hamem).1
  by_cases hneg : idx < 0
  · have he : ReferenceCountedArray.insert w.heap a idx x =
        ReferenceCountedArray.add w.heap a x := by
      unfold ReferenceCountedArray.insert
      rw [if_pos hneg]
    show World.Inv ⟨(ReferenceCountedArray.insert w.heap a idx x).1,
      w.arrays.set ai (ReferenceCountedArray.insert w.heap a idx x).2⟩
    rw [he]
    exact step_add_inv w ai x hai hx hI
  · have hh2 : (ReferenceCountedArray.insert w.heap a idx x).1 =
        optInc w.heap x := by
      unfold ReferenceCountedArray.insert
      rw [if_neg hneg]
      cases x <;> rfl
    have hlen := ReferenceCountedArray.insert_len_inv w.heap a idx x
    by_cases hgt : (a.numUsed : Int) < idx
    · have hu := insert_used_gt w.heap a idx x hal hgt
      apply inv_after_addlike w ai x hai hx hI _ _ hh2 hlen
      · intro o
        rw [hu, ← hadef]
        exact ReferenceCountedArray.cnt_append_single a.used x (some o)
      · intro y hy
        rw [hu] at hy
        rw [← hadef]
        rcases List.mem_append.mp hy with hy1 | hy2
        · exact Or.inl hy1
        · exact Or.inr (List.mem_singleton.mp hy2)
    · have hu := ReferenceCountedArray.insert_used w.heap a idx x hal
        (by omega) (by omega)
      apply inv_after_addlike w ai x hai hx hI _ _ hh2 hlen
      · intro o
        rw [hu, ← hadef]
        exact ReferenceCountedArray.cnt_splice a.used idx.toNat x (some o)
      · intro y hy
        rw [hu] at hy
        rw [← hadef]
        exact mem_splice a.used idx.toNat x y hy

theorem inv_set_self (w : World) (ai : Nat) (hai : ai < w.arrays.length)
    (hI : World.Inv w) :
    World.Inv ⟨w.heap, w.arrays.set ai (w.arrays.getD ai emptyArray)⟩ := by
  obtain ⟨hnd, harr, hcnt, hslots⟩ := hI
  set a := w.arrays.getD ai emptyArray with hadef
  have hamem : a ∈ w.arrays := getD_mem_of_lt _ _ hai
  apply inv_of_parts w ai hai w.heap a hnd (harr a hamem).1
  · intro o ho
    have h1 := slotCount_after_set w w.heap ai a hai o
    rw [← hadef] at h1
    rw [show World.slotCount ⟨w.heap, w.arrays.set ai a⟩ o =
      World.slotCount w o from by omega]
    exact hcnt o ho
  · intro b hb y hy
    rcases List.mem_or_eq_of_mem_set hb with hbo | hbeq
    · exact hslots b hbo y hy
    · rw [hbeq] at hy
      exact hslots a hamem y hy
  · exact harr

theorem slotValid_optInc (h : Heap) (x y : Slot) :
    slotValid (optInc h x) y = slotValid h y := by
  cases x with
  | none => rfl
  | some o0 => exact slotValid_incReferenceCount h o0 y

theorem keys_optInc (h : Heap) (x : Slot) :
    Heap.keys (optInc h x) = Heap.keys h := by
  cases x with
  | none => rfl
  | some o0 => exact Heap.keys_incReferenceCount h o0

theorem lookup_optInc (h : Heap) (x : Slot) (cnt : ObjId → Nat)
    (hlk : ∀ o ∈ Heap.keys h, Heap.lookup h o = some (cnt o)) :
    ∀ o ∈ Heap.keys h, Heap.lookup (optInc h x) o =
      some (cnt o + ReferenceCountedArray.ind x (some o)) := by
  intro o ho
  cases x with
  | none =>
      rw [show optInc h none = h from rfl, ind_none, Nat.add_zero]
      exact hlk o ho
  | some o0 =>
      rw [show optInc h (some o0) = Heap.incReferenceCount h o0 from rfl,
        Heap.lookup_incReferenceCount]
      by_cases hoe : o = o0
      · rw [if_pos hoe, hlk o ho,
          show ReferenceCountedArray.ind (some o0) (some o) = 1 from by
            rw [hoe]; exact ind_some_self o0]
        rfl
      · rw [if_neg hoe, hlk o ho,
          ind_some_ne o0 o (fun hc => hoe hc.symm), Nat.add_zero]

theorem step_remove_inv (w : World) (ai : Nat) (idx : Int)
    (hai : ai < w.arrays.length) (hI : World.Inv w) :
    World.Inv (w.step (AOp.remove ai idx)) := by
  set a := w.arrays.getD ai emptyArray with hadef
  have hamem : a ∈ w.arrays := getD_mem_of_lt _ _ hai
  have hal := (hI.2.1 a hamem).1
  have hul : a.used.length = a.numUsed := (hI.2.1 a hamem).2
  by_cases hpos : isPositiveAndBelow idx a.numUsed = true
  case neg =>
      have he : ReferenceCountedArray.remove w.heap a idx = (w.heap, a) := by
        unfold ReferenceCountedArray.remove
        rw [if_neg hpos]
      show World.Inv ⟨(ReferenceCountedArray.remove w.heap a idx).1,
        w.arrays.set ai (ReferenceCountedArray.remove w.heap a idx).2⟩
      rw [he]
      exact inv_set_self w ai hai hI
  case pos =>
      obtain ⟨hnd, harr, hcnt, hslots⟩ := hI
      have hchar := ReferenceCountedArray.remove_in_characterisation w.heap
        a idx hal hpos
      have hb : 0 ≤ idx ∧ idx < (a.numUsed : Int) := by
        simpa [isPositiveAndBelow] using hpos
      have hin : idx.toNat < a.numUsed := by omega
      have hinu : idx.toNat < a.used.length := by omega
      have hgd : a.elements.getD idx.toNat none =
          a.used.getD idx.toNat none := (getD_take_of_lt _ _ _ hin).symm
      have hh1 : (ReferenceCountedArray.remove w.heap a idx).1 =
          optRelease w.heap (a.elements.getD idx.toNat none) := by
        unfold ReferenceCountedArray.remove
        rw [if_pos hpos]
        show (match a.elements.getD idx.toNat none with
          | some o => Heap.releaseObject w.heap o
          | none => w.heap) =
            optRelease w.heap (a.elements.getD idx.toNat none)
        cases a.elements.getD idx.toNat none <;> rfl
      set a' := (ReferenceCountedArray.remove w.heap a idx).2 with ha'
      have hsc : ∀ o : ObjId,
          World.slotCount ⟨(ReferenceCountedArray.remove w.heap a idx).1,
            w.arrays.set ai a'⟩ o +
            ReferenceCountedArray.ind (a.used.getD idx.toNat none) (some o) =
          World.slotCount w o := by
        intro o
        have h1 := slotCount_after_set w
          (ReferenceCountedArray.remove w.heap a idx).1 ai a' hai o
        rw [← hadef] at h1
        have h2 := ReferenceCountedArray.cnt_erase a.used idx.toNat (some o)
          hinu
        have h3 : a'.used.count (some o) =
            (a.used.take idx.toNat ++ a.used.drop (idx.toNat + 1)).count
              (some o) := by
          rw [ha', hchar.1]
        omega
      cases hy : a.elements.getD idx.toNat none with
      | none =>
          have hh : (ReferenceCountedArray.remove w.heap a idx).1 = w.heap := by
            rw [hh1, hy]
            rfl
          show World.Inv ⟨(ReferenceCountedArray.remove w.heap a idx).1,
            w.arrays.set ai a'⟩
          have hyu : a.used.getD idx.toNat none = none := by rw [← hgd, hy]
          apply inv_of_parts w ai hai _ a' (by rw [hh]; exact hnd) hchar.2.2
          · intro o ho
            have := hsc o
            rw [hyu, ind_none] at this
            rw [show World.slotCount
              ⟨(ReferenceCountedArray.remove w.heap a idx).1,
                w.arrays.set ai a'⟩ o = World.slotCount w o from by omega]
            rw [hh] at ho ⊢
            exact hcnt o ho
          · intro b hb y hy2
            rw [hh]
            rcases List.mem_or_eq_of_mem_set hb with hbo | hbeq
            · exact hslots b hbo y hy2
            · rw [hbeq] at hy2
              rw [hchar.1] at hy2
              exact hslots a hamem y (mem_erase_part _ _ _ hy2)
          · exact harr
      | some o0 =>
          have hh : (ReferenceCountedArray.remove w.heap a idx).1 =
              Heap.releaseObject w.heap o0 := by
            rw [hh1, hy]
            rfl
          show World.Inv ⟨(ReferenceCountedArray.remove w.heap a idx).1,
            w.arrays.set ai a'⟩
          have hyu : a.used.getD idx.toNat none = some o0 := by
            rw [← hgd, hy]
          apply inv_after_release _ w.heap o0 w.slotCount hnd hcnt hh
          · intro o
            have := hsc o
            rw [hyu] at this
            exact this
          · intro b hb y hy2
            rcases List.mem_or_eq_of_mem_set hb with hbo | hbeq
            · exact hslots b hbo y hy2
            · rw [hbeq] at hy2
              rw [hchar.1] at hy2
              exact hslots a hamem y (mem_erase_part _ _ _ hy2)
          · intro b hb
            rcases List.mem_or_eq_of_mem_set hb with hbo | hbeq
            · exact harr b hbo
            · rw [hbeq]
              exact ⟨hchar.2.2, used_length_of_le a' hchar.2.2⟩

theorem step_set_inv (w : World) (ai : Nat) (idx : Int) (x : Slot)
    (hai : ai < w.arrays.length) (hx : slotValid w.heap x = true)
    (hI : World.Inv w) : World.Inv (w.step (AOp.set ai idx x)) := by
  set a := w.arrays.getD ai emptyArray with hadef
  have hamem : a ∈ w.arrays := getD_mem_of_lt _ _ hai
  have hal := (hI.2.1 a hamem).1
  have hul : a.used.length = a.numUsed := (hI.2.1 a hamem).2
  by_cases h0 : 0 ≤ idx
  case neg =>
      have he : ReferenceCountedArray.set w.heap a idx x = (w.heap, a) := by
        unfold ReferenceCountedArray.set
        rw [if_neg h0]
      show World.Inv ⟨(ReferenceCountedArray.set w.heap a idx x).1,
        w.arrays.set ai (ReferenceCountedArray.set w.heap a idx x).2⟩
      rw [he]
      exact inv_set_self w ai hai hI
  case pos =>
      by_cases hlt : idx < (a.numUsed : Int)
      case neg =>
          have he := ReferenceCountedArray.set_oob_eq_add w.heap a idx x h0
            (by omega)
          show World.Inv ⟨(ReferenceCountedArray.set w.heap a idx x).1,
            w.arrays.set ai (ReferenceCountedArray.set w.heap a idx x).2⟩
          rw [he]
          exact step_add_inv w ai x hai hx hI
      case pos =>
          obtain ⟨hnd, harr, hcnt, hslots⟩ := hI
          have hchar := ReferenceCountedArray.set_in_used w.heap a idx x h0 hlt
          have hin : idx.toNat < a.numUsed := by omega
          have hinu : idx.toNat < a.used.length := by omega
          have hgd : a.elements.getD idx.toNat none =
              a.used.getD idx.toNat none := (getD_take_of_lt _ _ _ hin).symm
          have hh1 : (ReferenceCountedArray.set w.heap a idx x).1 =
              optRelease (optInc w.heap x)
                (a.elements.getD idx.toNat none) := by
            clear hx hchar
            unfold ReferenceCountedArray.set
            rw [if_pos h0, if_pos hlt]
            show (match a.elements.getD idx.toNat none with
              | some o => Heap.releaseObject (match x with
                  | some o2 => Heap.incReferenceCount w.heap o2
                  | none => w.heap) o
              | none => (match x with
                  | some o2 => Heap.incReferenceCount w.heap o2
                  | none => w.heap)) =
                optRelease (optInc w.heap x) (a.elements.getD idx.toNat none)
            cases x <;> cases a.elements.getD idx.toNat none <;> rfl
          set a' := (ReferenceCountedArray.set w.heap a idx x).2 with ha'
          have hlen : a'.numUsed ≤ a'.elements.length := by
            rw [ha', hchar.2.1, hchar.2.2]
            exact hal
          have hsc : ∀ o : ObjId,
              World.slotCount ⟨(ReferenceCountedArray.set w.heap a idx x).1,
                w.arrays.set ai a'⟩ o +
                ReferenceCountedArray.ind (a.used.getD idx.toNat none)
                  (some o) =
              World.slotCount w o +
                ReferenceCountedArray.ind x (some o) := by
            intro o
            have h1 := slotCount_after_set w
              (ReferenceCountedArray.set w.heap a idx x).1 ai a' hai o
            rw [← hadef] at h1
            have h2 := ReferenceCountedArray.cnt_set a.used idx.toNat x
              (some o) hinu
            have h3 : a'.used.count (some o) =
                (a.used.set idx.toNat x).count (some o) := by
              rw [ha', hchar.1]
            omega
          cases hy : a.elements.getD idx.toNat none with
          | none =>
              have hh : (ReferenceCountedArray.set w.heap a idx x).1 =
                  optInc w.heap x := by
                rw [hh1, hy]
                rfl
              show World.Inv ⟨(ReferenceCountedArray.set w.heap a idx x).1,
                w.arrays.set ai a'⟩
              have hyu : a.used.getD idx.toNat none = none := by
                rw [← hgd, hy]
              apply inv_after_addlike w ai x hai hx
                ⟨hnd, harr, hcnt, hslots⟩ a' _ hh hlen
              · intro o
                have := hsc o
                rw [hyu, ind_none] at this
                rw [← hadef]
                have h1 := slotCount_after_set w
                  (ReferenceCountedArray.set w.heap a idx x).1 ai a' hai o
                rw [← hadef] at h1
                omega
              · intro y hy2
                rw [← hadef]
                rw [ha', hchar.1] at hy2
                exact List.mem_or_eq_of_mem_set hy2
          | some o0 =>
              have hh : (ReferenceCountedArray.set w.heap a idx x).1 =
                  Heap.releaseObject (optInc w.heap x) o0 := by
                rw [hh1, hy]
                cases x <;> rfl
              show World.Inv ⟨(ReferenceCountedArray.set w.heap a idx x).1,
                w.arrays.set ai a'⟩
              have hyu : a.used.getD idx.toNat none = some o0 := by
                rw [← hgd, hy]
              apply inv_after_release _ (optInc w.heap x) o0
                (fun o => World.slotCount w o +
                  ReferenceCountedArray.ind x (some o))
                (by rw [keys_optInc]; exact hnd)
                (by
                  intro o ho
                  rw [keys_optInc] at ho
                  exact lookup_optInc w.heap x w.slotCount hcnt o ho)
                hh
              · intro o
                have := hsc o
                rw [hyu] at this
                exact this
              · intro b hb y hy2
                rw [slotValid_optInc]
                rcases List.mem_or_eq_of_mem_set hb with hbo | hbeq
                · exact hslots b hbo y hy2
                · rw [hbeq] at hy2
                  rw [ha', hchar.1] at hy2
                  rcases List.mem_or_eq_of_mem_set hy2 with hyo | hyeq
                  · exact hslots a hamem y hyo
                  · rw [hyeq]
                    exact hx
              · intro b hb
                rcases List.mem_or_eq_of_mem_set hb with hbo | hbeq
                · exact harr b hbo
                · rw [hbeq]
                  exact ⟨hlen, used_length_of_le a' hlen⟩

theorem step_preserves_inv (w : World) (op : AOp)
    (hv : AOp.valid w op = true) (hI : World.Inv w) :
    World.Inv (w.step op) := by
  cases op with
  | add ai x =>
      rw [show AOp.valid w (AOp.add ai x) =
        (decide (ai < w.arrays.length) && slotValid w.heap x) from rfl,
        Bool.and_eq_true] at hv
      exact step_add_inv w ai x (of_decide_eq_true hv.1) hv.2 hI
  | insert ai i x =>
      rw [show AOp.valid w (AOp.insert ai i x) =
        (decide (ai < w.arrays.length) && slotValid w.heap x) from rfl,
        Bool.and_eq_true] at hv
      exact step_insert_inv w ai i x (of_decide_eq_true hv.1) hv.2 hI
  | remove ai i =>
      rw [show AOp.valid w (AOp.remove ai i) =
        decide (ai < w.arrays.length) from rfl] at hv
      exact step_remove_inv w ai i (of_decide_eq_true hv) hI
  | set ai i x =>
      rw [show AOp.valid w (AOp.set ai i x) =
        (decide (ai < w.arrays.length) && slotValid w.heap x) from rfl,
        Bool.and_eq_true] at hv
      exact step_set_inv w ai i x (of_decide_eq_true hv.1) hv.2 hI

theorem run_preserves_inv (w : World) (ops : List AOp)
    (hv : World.validSeq w ops = true) (hI : World.Inv w) :
    World.Inv (World.run w ops) := by
  induction ops generalizing w with
  | nil => exact hI
  | cons op rest ih =>
      rw [show World.validSeq w (op :: rest) =
        (AOp.valid w op && World.validSeq (w.step op) rest) from rfl,
        Bool.and_eq_true] at hv
      exact ih (w.step op) hv.2 (step_preserves_inv w op hv.1 hI)

theorem init_inv (k : Nat) (h0 : Heap)
    (hnd : (Heap.keys h0).Nodup)
    (hz : ∀ o ∈ Heap.keys h0, Heap.lookup h0 o = some 0) :
    World.Inv (World.init k h0) := by
  refine ⟨hnd, ?_, ?_, ?_⟩
  · intro a ha
    rw [List.eq_of_mem_replicate ha]
    exact ⟨Nat.le_refl 0, rfl⟩
  · intro o ho
    have hsc : World.slotCount (World.init k h0) o = 0 := by
      unfold World.slotCount World.init
      simp [emptyArray, ReferenceCountedArray.used]
    rw [hsc]
    exact hz o ho
  · intro a ha x hx
    rw [List.eq_of_mem_replicate ha] at hx
    simp [emptyArray, ReferenceCountedArray.used] at hx

/-- C1: starting from empty arrays over a fresh population (reference counts
all zero) and applying any valid sequence of `add`, `insert`, `remove` and
`set` operations, every array's `numUsed` counts exactly its occupied slots
and stays within its capacity, and every live object's reference count equals
the number of slots across all arrays currently holding it; moreover
`releaseObject` decrements a live occupant's count exactly once, destroying
the object (removing it from the heap) iff that decrement reaches zero. -/
theorem refcount_invariant_holds (k : Nat) (h0 : Heap) (ops : List AOp)
    (hnd : (Heap.keys h0).Nodup)
    (hz : ∀ o ∈ Heap.keys h0, Heap.lookup h0 o = some 0)
    (hv : World.validSeq (World.init k h0) ops = true) :
    World.Inv (World.run (World.init k h0) ops) ∧
    (∀ (h : Heap) (o : ObjId) (n : Nat), (Heap.keys h).Nodup →
      Heap.lookup h o = some n →
      Heap.lookup (Heap.releaseObject h o) o =
        (if n = 1 then none else some (n - 1))) := by
  constructor
  · exact run_preserves_inv _ ops hv (init_inv k h0 hnd hz)
  · intro h o n hnd2 hlk
    rw [Heap.lookup_releaseObject h o o hnd2, if_pos rfl, hlk]

theorem refcount_invariant_holds_witness :
    World.Inv (World.run (World.init 2 [(1, 0), (2, 0)])
      [AOp.add 0 (some 1), AOp.insert 1 0 (some 1), AOp.set 0 0 (some 2),
       AOp.remove 1 0]) ∧
    (∀ (h : Heap) (o : ObjId) (n : Nat), (Heap.keys h).Nodup →
      Heap.lookup h o = some n →
      Heap.lookup (Heap.releaseObject h o) o =
        (if n = 1 then none else some (n - 1))) :=
  refcount_invariant_holds 2 [(1, 0), (2, 0)]
    [AOp.add 0 (some 1), AOp.insert 1 0 (some 1), AOp.set 0 0 (some 2),
     AOp.remove 1 0] (by decide) (by decide) (by decide)

end Water
